import Mathlib

/-!
Verification development for the `rust_proxy` SSE translator
(`src/rust_proxy/src/sse_processor.rs`).

The Rust code is shallowly embedded as executable Lean definitions:

* `parse_sse_line` embeds the line classifier of the same name;
* `process_single_dev_event` embeds the event dispatcher of the same name
  (the `serde_json` parsers used for `action` / `sources` / `repoSources`
  payloads are external library code, so they are passed in as an abstract
  `JsonParsers` record);
* `utf8Strict` / `utf8Lossy` embed `str::from_utf8` / `String::from_utf8_lossy`
  (bytes are `Nat`s below 256; the lossy decoder follows Rust's
  "maximal subpart" substitution, one U+FFFD per skipped subpart);
* `process_dev_bytes_stream_unfold` embeds the `stream::unfold` driver.
  The upstream byte stream is a finite `List ByteItem`; one `pullNext`
  application is one poll of the unfolded stream.  The driver's trace is
  produced by iterating `pullNext` with a fuel argument so that every
  definition stays kernel-computable; the fuel chosen by the wrapper
  (`streamFuel`) is an upper bound on the number of yielded items, since
  every yielded chunk drains at least one character of buffered text and
  the two terminal yields each set the sticky `final_chunk_sent` flag.

Wall-clock time (`created` field of a chunk, `SystemTime::now()` in the
source) is modelled as the constant 0; all stream-equality statements are
therefore "up to `created` timestamps" exactly as the spec phrases them.
-/

namespace SseProc

/-- Model of `serde_json::Value` (external library type used for the
`extra` bags of the Dev structures). -/
inductive JsonValue where
  | null : JsonValue
  | bool (b : Bool) : JsonValue
  | num (n : Int) : JsonValue
  | str (s : String) : JsonValue
  | arr (elems : List JsonValue) : JsonValue
  | obj (fields : List (String × JsonValue)) : JsonValue

/-- `DevAction`: an action event payload (`type` plus preserved extras). -/
structure DevAction where
  action_type : Nat
  extra : JsonValue

/-- `DevSource`: a source entry (`title`, `url`, preserved extras). -/
structure DevSource where
  title : Option String
  url : Option String
  extra : JsonValue

/-- `DevGithubSource`: a GitHub source entry (`repo`, `filePath`, extras). -/
structure DevGithubSource where
  repo : Option String
  file_path : Option String
  extra : JsonValue

/-- `SseAccumulator`: the per-request accumulator state. -/
structure SseAccumulator where
  text : String := ""
  actions : List DevAction := []
  sources : List DevSource := []
  github_sources : List DevGithubSource := []
  related_questions : List String := []
  related_questions_raw : String := ""
  thread_id : Option String := none
  query_message_id : Option String := none
  answer_message_id : Option String := none
  thread_title : Option String := none
  reasoning : Option String := none
  is_finished : Bool := false
  error : Option String := none

/-- `SseAccumulator::update_related_questions`: split the raw buffer on
newlines, trim each piece, drop empties. -/
def update_related_questions (acc : SseAccumulator) : SseAccumulator :=
  let qs := ((acc.related_questions_raw.splitOn "\n").map String.trim).filter (fun q => !q.isEmpty)
  { acc with related_questions := qs }

/-- `Delta` of an OpenAI chat-completion chunk choice. -/
structure Delta where
  role : Option String := none
  content : Option String := none
deriving DecidableEq, Repr

/-- `Choice` of an OpenAI chat-completion chunk. -/
structure Choice where
  index : Nat
  delta : Delta
  finish_reason : Option String
deriving DecidableEq, Repr

/-- `ChatCompletionChunk` emitted downstream.  `created` is wall-clock
seconds in the source (`SystemTime::now()`); it is modelled as 0, so chunk
equality here is equality up to the `created` timestamp. -/
structure ChatCompletionChunk where
  id : String
  object : String
  created : Nat
  model : String
  choices : List Choice
deriving DecidableEq, Repr

/-- `create_content_chunk`. -/
def create_content_chunk (id model content : String) : ChatCompletionChunk :=
  { id := id
    object := "chat.completion.chunk"
    created := 0
    model := model
    choices := [{ index := 0
                  delta := { role := some "assistant", content := some content }
                  finish_reason := none }] }

/-- `create_final_chunk`: empty delta, explicit finish reason. -/
def create_final_chunk (id model finish_reason : String) : ChatCompletionChunk :=
  { id := id
    object := "chat.completion.chunk"
    created := 0
    model := model
    choices := [{ index := 0
                  delta := {}
                  finish_reason := some finish_reason }] }

/-- `create_error_chunk`: `[STREAM_ERROR]: ` content and `"stop"` finish. -/
def create_error_chunk (id model error_message : String) : ChatCompletionChunk :=
  { id := id
    object := "chat.completion.chunk"
    created := 0
    model := model
    choices := [{ index := 0
                  delta := { role := some "assistant"
                             content := some ("[STREAM_ERROR]: " ++ error_message) }
                  finish_reason := some "stop" }] }

/-- `SseLine`: classification of one SSE line. -/
inductive SseLine where
  | Event (v : String) : SseLine
  | Data (v : String) : SseLine
  | Retry (v : String) : SseLine
  | Id (v : String) : SseLine
  | Comment : SseLine
  | Empty : SseLine
deriving DecidableEq, Repr

/-- `str::split_once(':')`: split at the first colon, `none` if absent. -/
def splitOnceColon : List Char → Option (List Char × List Char)
  | [] => none
  | c :: cs =>
    if c = ':' then some ([], cs)
    else
      match splitOnceColon cs with
      | some (f, v) => some (c :: f, v)
      | none => none

/-- `value.strip_prefix(' ').unwrap_or(value)`: drop at most one leading
space. -/
def stripOneSpace : List Char → List Char
  | ' ' :: cs => cs
  | cs => cs

/-- `parse_sse_line`: classify one already-trimmed SSE line. -/
def parse_sse_line (line : String) : SseLine :=
  let cs := line.data
  if cs.isEmpty then .Empty
  else if cs.head? = some ':' then .Comment
  else
    let fv := (splitOnceColon cs).getD (cs, [])
    let value := stripOneSpace fv.2
    match String.mk fv.1 with
    | "event" => .Event (String.mk value)
    | "data" => .Data (String.mk value)
    | "id" => .Id (String.mk value)
    | "retry" => .Retry (String.mk value)
    | _ => .Comment

/-- The claim's wording of the line grammar, transcribed as an
independent function to compare `parse_sse_line` against: empty line to
`Empty`; leading colon to `Comment`; otherwise split at the first colon
(a line with no colon is a field with empty value), strip at most one
leading space of the value keeping everything after it verbatim, and map
the four recognized fields to their variants, any other field to
`Comment`. -/
def parse_sse_line_spec (line : String) : SseLine :=
  let cs := line.data
  if cs = [] then .Empty
  else if cs.head? = some ':' then .Comment
  else
    let field := String.mk (cs.takeWhile (fun c => c ≠ ':'))
    let value := String.mk
      (let v := (cs.dropWhile (fun c => c ≠ ':')).drop 1
       if v.head? = some ' ' then v.tail else v)
    if field = "event" then .Event value
    else if field = "data" then .Data value
    else if field = "id" then .Id value
    else if field = "retry" then .Retry value
    else .Comment

/-- The `serde_json`-backed parsers used by `safe_json_parse` at the three
structured event types.  `serde_json` is external library code, so the
dispatcher is parameterised over it: any claim proved for every
`JsonParsers` holds for the real parsers in particular. -/
structure JsonParsers where
  parseAction : String → Option DevAction
  parseSources : String → Option (List DevSource)
  parseRepoSources : String → Option (List DevGithubSource)

/-- Parsers that always fail (used to build concrete failing-parse runs). -/
def noParsers : JsonParsers :=
  { parseAction := fun _ => none
    parseSources := fun _ => none
    parseRepoSources := fun _ => none }

/-- `process_single_dev_event`: update the accumulator for one assembled
`(event_name, data)` record and optionally produce a chunk.  Mirrors the
Rust `match event_name.as_str()` arm for arm (logging elided). -/
def process_single_dev_event (P : JsonParsers) (accumulator : SseAccumulator)
    (event_name data request_id model_name : String) :
    SseAccumulator × Option ChatCompletionChunk :=
  match event_name with
  | "message" | "content" | "c" =>
    if data.isEmpty then (accumulator, none)
    else
      ({ accumulator with text := accumulator.text ++ data },
       some (create_content_chunk request_id model_name data))
  | "action" =>
    match P.parseAction data with
    | some a => ({ accumulator with actions := accumulator.actions ++ [a] }, none)
    | none => (accumulator, none)
  | "sources" =>
    match P.parseSources data with
    | some s => ({ accumulator with sources := s }, none)
    | none => (accumulator, none)
  | "repoSources" =>
    match P.parseRepoSources data with
    | some gs => ({ accumulator with github_sources := gs }, none)
    | none => (accumulator, none)
  | "rlq" | "q" =>
    if data.isEmpty then (accumulator, none)
    else
      let raw := accumulator.related_questions_raw ++ "\n" ++ data.trim
      ({ accumulator with related_questions_raw := raw }, none)
  | "r" =>
    let rs := some ((accumulator.reasoning.getD "") ++ data)
    ({ accumulator with reasoning := rs }, none)
  | "threadId" => ({ accumulator with thread_id := some data }, none)
  | "queryMessageId" => ({ accumulator with query_message_id := some data }, none)
  | "answerMessageId" => ({ accumulator with answer_message_id := some data }, none)
  | "threadTitle" => ({ accumulator with thread_title := some data }, none)
  | "error" =>
    ({ accumulator with error := some data, is_finished := true },
     some (create_error_chunk request_id model_name data))
  | "finish" => (accumulator, none)
  | _ => (accumulator, none)

/-! ### UTF-8 decoding (`str::from_utf8`, `String::from_utf8_lossy`)

Bytes are `Nat`s below 256.  `utf8Strict` is `str::from_utf8` (succeeds
exactly on valid UTF-8); `utf8Lossy` is `String::from_utf8_lossy`, which
replaces each maximal subpart of an ill-formed subsequence with one
U+FFFD, following the byte-range table of Rust's core UTF-8 validation:
a bad leading byte or a bad first continuation byte skips one byte, a bad
second (third) continuation byte skips two (three) bytes, and a truncated
sequence at end of input is replaced by a single U+FFFD. -/

/-- Continuation byte test: `0x80..=0xBF`. -/
def isCont (b : Nat) : Bool := 0x80 ≤ b && b ≤ 0xBF

/-- Allowed first continuation byte for a three-byte leading byte
(`0xE0..=0xEF`): excludes overlong encodings and surrogates. -/
def cont3First (b b1 : Nat) : Bool :=
  (b = 0xE0 && 0xA0 ≤ b1 && b1 ≤ 0xBF) ||
  (0xE1 ≤ b && b ≤ 0xEC && isCont b1) ||
  (b = 0xED && 0x80 ≤ b1 && b1 ≤ 0x9F) ||
  (0xEE ≤ b && b ≤ 0xEF && isCont b1)

/-- Allowed first continuation byte for a four-byte leading byte
(`0xF0..=0xF4`): excludes overlong encodings and planes above U+10FFFF. -/
def cont4First (b b1 : Nat) : Bool :=
  (b = 0xF0 && 0x90 ≤ b1 && b1 ≤ 0xBF) ||
  (0xF1 ≤ b && b ≤ 0xF3 && isCont b1) ||
  (b = 0xF4 && 0x80 ≤ b1 && b1 ≤ 0x8F)

/-- The replacement character U+FFFD. -/
def repl : Char := Char.ofNat 0xFFFD

/-- Scalar value of a decoded two-byte sequence. -/
def scalar2 (b b1 : Nat) : Char := Char.ofNat ((b - 0xC0) * 64 + (b1 - 0x80))

/-- Scalar value of a decoded three-byte sequence. -/
def scalar3 (b b1 b2 : Nat) : Char :=
  Char.ofNat ((b - 0xE0) * 4096 + (b1 - 0x80) * 64 + (b2 - 0x80))

/-- Scalar value of a decoded four-byte sequence. -/
def scalar4 (b b1 b2 b3 : Nat) : Char :=
  Char.ofNat ((b - 0xF0) * 262144 + (b1 - 0x80) * 4096 + (b2 - 0x80) * 64 + (b3 - 0x80))

/-- `String::from_utf8_lossy`. -/
def utf8Lossy : List Nat → List Char
  | [] => []
  | b :: bs =>
    if b < 0x80 then Char.ofNat b :: utf8Lossy bs
    else if 0xC2 ≤ b && b ≤ 0xDF then
      match bs with
      | [] => [repl]
      | b1 :: r =>
        if isCont b1 then scalar2 b b1 :: utf8Lossy r
        else repl :: utf8Lossy (b1 :: r)
    else if 0xE0 ≤ b && b ≤ 0xEF then
      match bs with
      | [] => [repl]
      | b1 :: r =>
        if cont3First b b1 then
          match r with
          | [] => [repl]
          | b2 :: r2 =>
            if isCont b2 then scalar3 b b1 b2 :: utf8Lossy r2
            else repl :: utf8Lossy (b2 :: r2)
        else repl :: utf8Lossy (b1 :: r)
    else if 0xF0 ≤ b && b ≤ 0xF4 then
      match bs with
      | [] => [repl]
      | b1 :: r =>
        if cont4First b b1 then
          match r with
          | [] => [repl]
          | b2 :: r2 =>
            if isCont b2 then
              match r2 with
              | [] => [repl]
              | b3 :: r3 =>
                if isCont b3 then scalar4 b b1 b2 b3 :: utf8Lossy r3
                else repl :: utf8Lossy (b3 :: r3)
            else repl :: utf8Lossy (b2 :: r2)
        else repl :: utf8Lossy (b1 :: r)
    else repl :: utf8Lossy bs

/-- `str::from_utf8`: strict UTF-8 decoding, `none` on any ill-formed or
truncated sequence. -/
def utf8Strict : List Nat → Option (List Char)
  | [] => some []
  | b :: bs =>
    if b < 0x80 then (utf8Strict bs).map (fun cs => Char.ofNat b :: cs)
    else if 0xC2 ≤ b && b ≤ 0xDF then
      match bs with
      | [] => none
      | b1 :: r =>
        if isCont b1 then (utf8Strict r).map (fun cs => scalar2 b b1 :: cs)
        else none
    else if 0xE0 ≤ b && b ≤ 0xEF then
      match bs with
      | [] => none
      | b1 :: r =>
        if cont3First b b1 then
          match r with
          | [] => none
          | b2 :: r2 =>
            if isCont b2 then (utf8Strict r2).map (fun cs => scalar3 b b1 b2 :: cs)
            else none
        else none
    else if 0xF0 ≤ b && b ≤ 0xF4 then
      match bs with
      | [] => none
      | b1 :: r =>
        if cont4First b b1 then
          match r with
          | [] => none
          | b2 :: r2 =>
            if isCont b2 then
              match r2 with
              | [] => none
              | b3 :: r3 =>
                if isCont b3 then (utf8Strict r3).map (fun cs => scalar4 b b1 b2 b3 :: cs)
                else none
            else none
        else none
    else none

/-- The text appended to the decode buffer for one upstream byte batch:
`str::from_utf8` on success, `String::from_utf8_lossy` on failure. -/
def decodeBatch (bs : List Nat) : List Char :=
  match utf8Strict bs with
  | some cs => cs
  | none => utf8Lossy bs

/-! ### The stream driver (`process_dev_bytes_stream_unfold`) -/

/-- One item of the upstream byte stream
(`Result<Bytes, reqwest::Error>`); the transport-error payload is
irrelevant to the translator (it is wrapped and yielded opaquely). -/
inductive ByteItem where
  | bytes (bs : List Nat) : ByteItem
  | transportError : ByteItem
deriving DecidableEq, Repr

/-- One yielded item of the output stream
(`Result<ChatCompletionChunk>`). -/
inductive OutItem where
  | chunk (c : ChatCompletionChunk) : OutItem
  | streamError : OutItem
deriving DecidableEq, Repr

/-- The unfold state (`struct State` inside
`process_dev_bytes_stream_unfold`), minus the byte stream itself, which
is threaded separately as a `List ByteItem`. -/
structure DriverState where
  decoder_buffer : List Char
  accumulator : SseAccumulator
  current_event_name : String
  current_data_buffer : List String
  model_name : String
  request_id : String
  final_chunk_sent : Bool

/-- `DevRequestOptions`.  Modelled from the spec: the record lives in
`dev_client.rs`, which is not part of the provided sources; §6 of the
spec gives it `model` and `language` optional-string fields. -/
structure DevRequestOptions where
  model : Option String := none
  language : Option String := none

/-- The initial unfold state. -/
def initialState (options : DevRequestOptions) (request_id : String) : DriverState :=
  { decoder_buffer := []
    accumulator := {}
    current_event_name := "message"
    current_data_buffer := []
    model_name := options.model.getD "unknown-dev-model"
    request_id := request_id
    final_chunk_sent := false }

/-- Find the first `'\n'` of the buffer: returns the drained segment
(including the `'\n'`, as `drain(..=newline_pos)` does) and the rest. -/
def splitFirstNl : List Char → Option (List Char × List Char)
  | [] => none
  | c :: cs =>
    if c = '\n' then some ([c], cs)
    else
      match splitFirstNl cs with
      | some (l, r) => some (c :: l, r)
      | none => none

/-- `line.trim_end_matches(|c| c == '\n' || c == '\r')`. -/
def trimEndNlCr (l : List Char) : List Char :=
  (l.reverse.dropWhile (fun c => c = '\n' || c = '\r')).reverse

/-- `line.trim_end_matches('\r')` (used on residual lines). -/
def trimEndCr (l : List Char) : List Char :=
  (l.reverse.dropWhile (fun c => c = '\r')).reverse

/-- `current_data_buffer.join("\n")`. -/
def joinNl (lines : List String) : String := String.intercalate "\n" lines

/-- The inner `while let Some(newline_pos) = ... find('\n')` loop: process
complete buffered lines until a dispatch produces a chunk or no complete
line remains.  The loop drains at least one character per iteration, so
the fuel argument (always instantiated with `buffer.length + 1` by the
`processLines` wrapper) never runs out. -/
def processLinesF (P : JsonParsers) : Nat → DriverState → DriverState × Option ChatCompletionChunk
  | 0, st => (st, none)
  | f + 1, st =>
    match splitFirstNl st.decoder_buffer with
    | none => (st, none)
    | some (line, restBuf) =>
      let trimmed_line := String.mk (trimEndNlCr line)
      let st1 := { st with decoder_buffer := restBuf }
      match parse_sse_line trimmed_line with
      | .Empty =>
        if st1.current_data_buffer.isEmpty then
          processLinesF P f { st1 with current_event_name := "message" }
        else
          let data := joinNl st1.current_data_buffer
          let event_name := st1.current_event_name
          let st2 := { st1 with current_data_buffer := [], current_event_name := "message" }
          match process_single_dev_event P st2.accumulator event_name data
            st2.request_id st2.model_name with
          | (acc1, some c) => ({ st2 with accumulator := acc1 }, some c)
          | (acc1, none) => processLinesF P f { st2 with accumulator := acc1 }
      | .Event name => processLinesF P f { st1 with current_event_name := name }
      | .Data d =>
        processLinesF P f { st1 with current_data_buffer := st1.current_data_buffer ++ [d] }
      | .Id _ | .Retry _ | .Comment => processLinesF P f st1

/-- `processLinesF` at its always-sufficient fuel. -/
def processLines (P : JsonParsers) (st : DriverState) : DriverState × Option ChatCompletionChunk :=
  processLinesF P (st.decoder_buffer.length + 1) st

/-- One residual line's effect on the assembler state (EOF path: `Empty`
dispatches nothing and does not reset the event name). -/
def residualLineStep (st : DriverState) (trimmed : List Char) : DriverState :=
  match parse_sse_line (String.mk trimmed) with
  | .Empty => st
  | .Event name => { st with current_event_name := name }
  | .Data d => { st with current_data_buffer := st.current_data_buffer ++ [d] }
  | _ => st

/-- The EOF residual loop over `decoder_buffer.split('\n')`: each piece is
`'\r'`-trimmed and fed to the assembler; an empty trimmed piece is skipped
only when it is the last piece. -/
def residualLines : DriverState → List (List Char) → DriverState
  | st, [] => st
  | st, [piece] =>
    let t := trimEndCr piece
    if t.isEmpty then st else residualLineStep st t
  | st, piece :: rest => residualLines (residualLineStep st (trimEndCr piece)) rest

/-- `decoder_buffer.split('\n')` (Rust `str::split`, which always yields
at least one piece). -/
def splitOnNl : List Char → List (List Char)
  | [] => [[]]
  | c :: cs =>
    if c = '\n' then [] :: splitOnNl cs
    else
      match splitOnNl cs with
      | p :: ps => (c :: p) :: ps
      | [] => [[c]]

/-- The EOF residual flush: if the buffer is non-empty, feed its pieces to
the assembler, then dispatch any pending data under the currently held
event name, discarding the chunk the dispatcher may return; finally clear
the buffer. -/
def residualFlush (P : JsonParsers) (st : DriverState) : DriverState :=
  if st.decoder_buffer.isEmpty then st
  else
    let st1 := residualLines st (splitOnNl st.decoder_buffer)
    let st2 :=
      if st1.current_data_buffer.isEmpty then st1
      else
        let data := joinNl st1.current_data_buffer
        let event_name := st1.current_event_name
        match process_single_dev_event P st1.accumulator event_name data
          st1.request_id st1.model_name with
        | (acc1, _chunk_discarded) => { st1 with accumulator := acc1 }
    { st2 with decoder_buffer := [] }

/-- The body of the unfold closure after the `final_chunk_sent` check: the
`loop` that alternates buffered-line processing with reads from the byte
stream, and runs the termination protocol at EOF.  Returns `none` to end
the stream, or one yielded item together with the successor state and the
unread remainder of the byte stream. -/
def pullLoop (P : JsonParsers) (st : DriverState) (input : List ByteItem) :
    Option (OutItem × DriverState × List ByteItem) :=
  match processLines P st with
  | (st1, some c) => some (.chunk c, st1, input)
  | (st1, none) =>
    match input with
    | item :: rest =>
      match item with
      | .bytes bs =>
        pullLoop P { st1 with decoder_buffer := st1.decoder_buffer ++ decodeBatch bs } rest
      | .transportError =>
        some (.streamError, { st1 with final_chunk_sent := true }, rest)
    | [] =>
      let st2 := residualFlush P st1
      let st3 := { st2 with final_chunk_sent := true }
      if st3.accumulator.is_finished then none
      else
        let acc := update_related_questions { st3.accumulator with is_finished := true }
        some (.chunk (create_final_chunk st3.request_id st3.model_name "stop"),
          { st3 with accumulator := acc }, [])

/-- One poll of the unfolded stream: the sticky `final_chunk_sent` check,
then the read/process loop. -/
def pullNext (P : JsonParsers) (st : DriverState) (input : List ByteItem) :
    Option (OutItem × DriverState × List ByteItem) :=
  if st.final_chunk_sent then none else pullLoop P st input

/-- Iterate `pullNext`, collecting the yielded items and the state after
the last yield.  The fuel only bounds the number of yielded items; the
wrapper below supplies a bound that is always sufficient. -/
def runPullsF (P : JsonParsers) : Nat → DriverState → List ByteItem →
    List OutItem × DriverState
  | 0, st, _ => ([], st)
  | f + 1, st, input =>
    match pullNext P st input with
    | none => ([], st)
    | some (out, st1, input1) =>
      match runPullsF P f st1 input1 with
      | (outs, fin) => (out :: outs, fin)

/-- Total byte count of the stream items. -/
def itemBytes : List ByteItem → Nat
  | [] => 0
  | .bytes bs :: rest => bs.length + itemBytes rest
  | .transportError :: rest => itemBytes rest

/-- An upper bound on how many items a run can yield: every yielded chunk
drains at least the terminating `'\n'` of a buffered line (and decoded
text is never longer than its bytes), and at most one terminal item
(final chunk or transport error) is yielded before `final_chunk_sent`
stops the stream.  Note the bound depends only on the state and the total
byte count, not on how the bytes are batched. -/
def streamFuel (st : DriverState) (input : List ByteItem) : Nat :=
  st.decoder_buffer.length + itemBytes input + 2

/-- `process_dev_bytes_stream_unfold`: the full translator run over a
finite upstream byte stream — the list of yielded items (in order)
together with the final driver state. -/
def process_dev_bytes_stream_unfold (P : JsonParsers) (input : List ByteItem)
    (options : DevRequestOptions) (request_id : String) :
    List OutItem × DriverState :=
  let st := initialState options request_id
  runPullsF P (streamFuel st input) st input

/-! ### Statement helpers -/

/-- ASCII test inputs as byte lists. -/
def strBytes (s : String) : List Nat := s.data.map Char.toNat

/-- Does a chunk carry a non-null `finish_reason`? -/
def hasFinish (c : ChatCompletionChunk) : Bool :=
  c.choices.any (fun ch => ch.finish_reason.isSome)

/-- Is an output item a chunk with non-null `finish_reason`? -/
def isFinishOut (o : OutItem) : Bool :=
  match o with
  | .chunk c => hasFinish c
  | .streamError => false

/-- Error-chunk shape: some choice with a non-null `finish_reason` and a
content payload (`create_error_chunk` produces exactly this; content and
final chunks do not). -/
def errorShape (c : ChatCompletionChunk) : Bool :=
  c.choices.any (fun ch => ch.finish_reason.isSome && ch.delta.content.isSome)

/-- Final-chunk shape: some choice with a non-null `finish_reason` and an
empty delta (`create_final_chunk` produces exactly this). -/
def finalShape (c : ChatCompletionChunk) : Bool :=
  c.choices.any (fun ch => ch.finish_reason.isSome && ch.delta.content.isNone)

/-- Is an output item an empty-delta terminal chunk? -/
def isFinalOut (o : OutItem) : Bool :=
  match o with
  | .chunk c => finalShape c
  | .streamError => false

/-- Terminal emissions in the sense of the termination protocol: the final
`"stop"` chunk or a yielded transport-error result (error-event chunks are
not terminal: the driver keeps polling after them). -/
def isTerminalOut (o : OutItem) : Bool :=
  match o with
  | .chunk c => finalShape c
  | .streamError => true

/-- The `delta.content` of a content chunk (a yielded chunk whose
`finish_reason` is null); `none` for error results and finish-carrying
chunks. -/
def contentDeltaOf (o : OutItem) : Option String :=
  match o with
  | .chunk c =>
    match c.choices with
    | [ch] => if ch.finish_reason.isNone then ch.delta.content else none
    | _ => none
  | .streamError => none

/-- Concatenation of the content deltas of an output sequence. -/
def contentConcat (outs : List OutItem) : String :=
  (outs.filterMap contentDeltaOf).foldr (fun a b => a ++ b) ""

/-- The decoded characters an input stream contributes to the decode
buffer, in order. -/
def decodedChars : List ByteItem → List Char
  | [] => []
  | .bytes bs :: rest => decodeBatch bs ++ decodedChars rest
  | .transportError :: rest => decodedChars rest

/-- All characters a driver state and the unread input can still
contribute to line processing: the current decode buffer followed by the
decoded text of the remaining byte batches. -/
def combChars (st : DriverState) (input : List ByteItem) : List Char :=
  st.decoder_buffer ++ decodedChars input

/-- The remaining character stream is empty or ends with a newline (the
condition under which the EOF residual flush has nothing to do). -/
def combEnds (st : DriverState) (input : List ByteItem) : Prop :=
  combChars st input = [] ∨ (combChars st input).getLast? = some '\n'

/-- Everything one successful poll guarantees: identity fields kept,
`is_finished` and `error` definedness monotone, the
error-implies-finished invariant preserved, the remaining character
stream a suffix of the previous one, and the yielded item classified as a
content chunk, an error chunk, the final chunk, or a transport-error
result (with the corresponding state effects). -/
def PullFacts (st : DriverState) (input : List ByteItem) (out : OutItem)
    (st' : DriverState) (in' : List ByteItem) : Prop :=
  st'.request_id = st.request_id ∧ st'.model_name = st.model_name ∧
  (st.accumulator.is_finished = true → st'.accumulator.is_finished = true) ∧
  (st.accumulator.error.isSome = true → st'.accumulator.error.isSome = true) ∧
  ((st.accumulator.error.isSome = true → st.accumulator.is_finished = true) →
    st'.accumulator.error.isSome = true → st'.accumulator.is_finished = true) ∧
  (∃ k, k ≤ (combChars st input).length ∧
    combChars st' in' = (combChars st input).drop k) ∧
  ((∃ dd, out = .chunk (create_content_chunk st.request_id st.model_name dd) ∧
      st'.accumulator.text = st.accumulator.text ++ dd ∧
      st'.final_chunk_sent = st.final_chunk_sent ∧
      st'.accumulator.is_finished = st.accumulator.is_finished ∧
      st'.accumulator.error = st.accumulator.error) ∨
   (∃ dd, out = .chunk (create_error_chunk st.request_id st.model_name dd) ∧
      st'.accumulator.text = st.accumulator.text ∧
      st'.final_chunk_sent = st.final_chunk_sent ∧
      st'.accumulator.is_finished = true ∧ st'.accumulator.error = some dd) ∨
   (out = .chunk (create_final_chunk st.request_id st.model_name "stop") ∧
      st'.final_chunk_sent = true ∧ st.accumulator.is_finished = false ∧
      st'.accumulator.is_finished = true ∧ in' = [] ∧
      (∃ r, st'.accumulator.text = st.accumulator.text ++ r) ∧
      (combEnds st input → st'.accumulator.text = st.accumulator.text)) ∨
   (out = .streamError ∧ st'.final_chunk_sent = true ∧
      st'.accumulator.text = st.accumulator.text ∧
      st'.accumulator.is_finished = st.accumulator.is_finished ∧
      st'.accumulator.error = st.accumulator.error))

/-- Fixed request options for the concrete runs. -/
def testOptions : DevRequestOptions := { model := some "test-model" }

/-- A concrete translator run with the always-failing parsers (none of the
concrete inputs below carries a structured event that parses). -/
def testRun (items : List ByteItem) : List OutItem × DriverState :=
  process_dev_bytes_stream_unfold noParsers items testOptions "req-1"

/-- Spec scenario S4: a content event without a terminating blank line. -/
def s4Input : List ByteItem := [.bytes (strBytes "event: content\ndata: tail")]

/-- Spec scenario S2: content, then an `error` event, then more content. -/
def s2Input : List ByteItem :=
  [.bytes (strBytes "event: c\ndata: partial\n\nevent: error\ndata: boom\n\nevent: c\ndata: ignored\n\n")]

/-- Two consecutive `error` events. -/
def twoErrInput : List ByteItem :=
  [.bytes (strBytes "event: error\ndata: a\n\nevent: error\ndata: b\n\n")]

/-- A malformed `action` event followed by a content event. -/
def c8Input : List ByteItem :=
  [.bytes (strBytes "event: action\ndata: notjson\n\nevent: c\ndata: ok\n\n")]

/-- A single well-terminated content event. -/
def simpleInput : List ByteItem := [.bytes (strBytes "event: c\ndata: hi\n\n")]

/-- One full Dev event whose data payload is the two-byte UTF-8 encoding
of `é` (bytes `0xC3 0xA9`). -/
def c5Whole : List Nat := strBytes "event: c\ndata: " ++ [0xC3, 0xA9] ++ strBytes "\n\n"

/-- The same bytes cut immediately after the leading byte `0xC3`. -/
def c5PieceA : List Nat := strBytes "event: c\ndata: " ++ [0xC3]

/-- The remainder: the continuation byte `0xA9` and the event terminator. -/
def c5PieceB : List Nat := [0xA9] ++ strBytes "\n\n"

/-! ### Theorems -/

/-- `str::split_once(':')` with the no-colon default `(line, "")`, in
terms of take/drop at the first colon. -/
theorem splitOnceColon_getD :
    ∀ cs : List Char, (splitOnceColon cs).getD (cs, []) =
      (cs.takeWhile (fun c => c ≠ ':'), (cs.dropWhile (fun c => c ≠ ':')).drop 1) := by
  intro cs
  induction cs with
  | nil => rfl
  | cons c rest ih =>
    rw [splitOnceColon]
    by_cases hc : c = ':'
    · subst hc
      rw [if_pos rfl]
      simp [List.takeWhile_cons, List.dropWhile_cons]
    · rw [if_neg hc]
      rw [List.takeWhile_cons, List.dropWhile_cons]
      rw [if_pos (by simp [hc]), if_pos (by simp [hc])]
      rcases hs : splitOnceColon rest with _ | ⟨f, v⟩
      · rw [hs] at ih
        simp only [Option.getD_none] at ih
        simp only [Option.getD_none]
        rw [Prod.mk.injEq] at ih ⊢
        obtain ⟨ih1, ih2⟩ := ih
        exact ⟨by rw [← ih1], ih2⟩
      · rw [hs] at ih
        simp only [Option.getD_some] at ih
        simp only [Option.getD_some]
        rw [Prod.mk.injEq] at ih ⊢
        obtain ⟨ih1, ih2⟩ := ih
        exact ⟨by rw [← ih1], ih2⟩

/-- `value.strip_prefix(' ').unwrap_or(value)` drops exactly one leading
space when one is present. -/
theorem stripOneSpace_eq (v : List Char) :
    stripOneSpace v = if v.head? = some ' ' then v.tail else v := by
  rw [stripOneSpace.eq_def]
  split
  · simp
  · rename_i h
    rcases v with _ | ⟨c, cs⟩
    · rfl
    · rw [if_neg]
      intro hc
      simp only [List.head?_cons, Option.some.injEq] at hc
      exact h cs (by rw [hc])

/-- C6.  `parse_sse_line` classifies every input line exactly as
specified: it agrees with `parse_sse_line_spec`, the transcription of the
claim's wording (empty line to `Empty`; leading colon to `Comment`;
otherwise split at the first colon, a line with no colon being a field
with empty value, strip at most one leading space of the value, keep
everything after it — further colons included — verbatim, and map the
four recognized fields to their variants and any other field to
`Comment`), on every line.  The template families and the claim's five
concrete test vectors are included. -/
theorem c6_parse_sse_line :
    (∀ line : String, parse_sse_line line = parse_sse_line_spec line) ∧
    (∀ s : String, parse_sse_line ("event: " ++ s) = .Event s) ∧
    (∀ s : String, parse_sse_line ("data: " ++ s) = .Data s) ∧
    (∀ s : String, parse_sse_line ("id: " ++ s) = .Id s) ∧
    (∀ s : String, parse_sse_line ("retry: " ++ s) = .Retry s) ∧
    (∀ s : String, parse_sse_line (":" ++ s) = .Comment) ∧
    parse_sse_line "" = .Empty ∧
    parse_sse_line "data:  x" = .Data " x" ∧
    parse_sse_line "data: x" = .Data "x" ∧
    parse_sse_line "event:" = .Event "" ∧
    parse_sse_line "unknown: v" = .Comment ∧
    parse_sse_line "no colon" = .Comment ∧
    parse_sse_line "data: a:b:c" = .Data "a:b:c" := by
  refine ⟨fun line => ?_, fun s => ?_, fun s => ?_, fun s => ?_, fun s => ?_, fun s => ?_,
    rfl, rfl, rfl, rfl, rfl, rfl, rfl⟩
  case refine_2 =>
    cases s
    rfl
  case refine_3 =>
    cases s
    rfl
  case refine_4 =>
    cases s
    rfl
  case refine_5 =>
    cases s
    rfl
  case refine_6 =>
    cases s
    rfl
  unfold parse_sse_line parse_sse_line_spec
  rcases line with ⟨cs⟩
  dsimp only
  rcases cs with _ | ⟨c, rest⟩
  · rfl
  · by_cases hc : c = ':'
    · subst hc
      rfl
    · simp only [List.isEmpty_cons, Bool.false_eq_true, if_false, List.head?_cons,
        Option.some.injEq, hc, splitOnceColon_getD, stripOneSpace_eq]
      rw [if_neg (List.cons_ne_nil c rest)]
      split
      · rename_i heq
        rw [heq]
        simp
      · rename_i heq
        rw [heq]
        simp
      · rename_i heq
        rw [heq]
        simp
      · rename_i heq
        rw [heq]
        simp
      · rename_i h1 h2 h3 h4
        rw [if_neg h1, if_neg h2, if_neg h3, if_neg h4]

/-- C9 counterexample.  The accumulator's `error` field is not set at most
once: a second `error` event overwrites the message set by the first. -/
theorem c9_counterexample :
    (process_single_dev_event noParsers ({} : SseAccumulator) "error" "a"
      "req-1" "test-model").1.error = some "a" ∧
    (process_single_dev_event noParsers
      (process_single_dev_event noParsers ({} : SseAccumulator) "error" "a"
        "req-1" "test-model").1
      "error" "b" "req-1" "test-model").1.error = some "b" ∧
    (some "b" : Option String) ≠ some "a" := by
  refine ⟨rfl, rfl, by decide⟩

/-- C3 counterexample.  On scenario S4 the source's residual-flush path
discards the chunk returned by the dispatcher, so no content chunk
`"tail"` is emitted: the run yields only the final `"stop"` chunk. -/
theorem c3_counterexample :
    (testRun s4Input).1 = [.chunk (create_final_chunk "req-1" "test-model" "stop")] ∧
    (testRun s4Input).1 ≠
      [.chunk (create_content_chunk "req-1" "test-model" "tail"),
       .chunk (create_final_chunk "req-1" "test-model" "stop")] := by
  exact ⟨by decide, by decide⟩

/-- C3 as amended.  On scenario S4 the translator emits no content chunk
for the residual data: it yields exactly one chunk, the final chunk with
empty delta and `finish_reason` `"stop"`, and the residually-dispatched
data still reaches the accumulator, whose `text` equals `"tail"` at
stream end. -/
theorem c3_residual_flush :
    (testRun s4Input).1 = [.chunk (create_final_chunk "req-1" "test-model" "stop")] ∧
    (testRun s4Input).2.accumulator.text = "tail" := by
  exact ⟨by decide, by decide⟩

/-- C4 counterexample.  On scenario S4 the concatenation of the emitted
content deltas is empty, yet the accumulator's text is `"tail"` at stream
end: the two differ. -/
theorem c4_counterexample :
    contentConcat (testRun s4Input).1 = "" ∧
    (testRun s4Input).2.accumulator.text = "tail" ∧
    ("" : String) ≠ "tail" := by
  exact ⟨by decide, by decide, by decide⟩

/-- C2 counterexample.  On scenario S2 a content chunk `"ignored"` is
yielded after the error chunk: the source does not discard post-error
content events. -/
theorem c2_counterexample :
    (testRun s2Input).1 =
      [.chunk (create_content_chunk "req-1" "test-model" "partial"),
       .chunk (create_error_chunk "req-1" "test-model" "boom"),
       .chunk (create_content_chunk "req-1" "test-model" "ignored")] ∧
    errorShape (create_error_chunk "req-1" "test-model" "boom") = true := by
  exact ⟨by decide, by decide⟩

/-- C1 counterexample.  Two `error` events each yield a chunk with
`finish_reason = "stop"`, so a stream can contain two chunks with non-null
`finish_reason`, the first of which is not last. -/
theorem c1_counterexample :
    (testRun twoErrInput).1 =
      [.chunk (create_error_chunk "req-1" "test-model" "a"),
       .chunk (create_error_chunk "req-1" "test-model" "b")] ∧
    ((testRun twoErrInput).1.filter isFinishOut).length = 2 := by
  exact ⟨by decide, by decide⟩

/-- C5 counterexample.  Splitting the upstream bytes inside a multi-byte
UTF-8 character changes the emitted chunk sequence: the per-batch lossy
decode turns the split `é` into two replacement characters. -/
theorem c5_counterexample :
    c5PieceA ++ c5PieceB = c5Whole ∧
    (testRun [.bytes c5Whole]).1 ≠ (testRun [.bytes c5PieceA, .bytes c5PieceB]).1 := by
  exact ⟨by decide, by decide⟩

/-! ### Dispatcher and framer lemmas -/

/-- Case analysis of one dispatch: either no chunk and `text`,
`is_finished`, `error` untouched; or a content chunk appending exactly its
delta to `text`; or an error chunk setting `error` and `is_finished`. -/
theorem dispatch_cases (P : JsonParsers) (acc : SseAccumulator) (e d rid mo : String)
    (acc' : SseAccumulator) (och : Option ChatCompletionChunk)
    (h : process_single_dev_event P acc e d rid mo = (acc', och)) :
    (och = none ∧ acc'.text = acc.text ∧ acc'.is_finished = acc.is_finished ∧
      acc'.error = acc.error) ∨
    (och = some (create_content_chunk rid mo d) ∧ acc'.text = acc.text ++ d ∧
      acc'.is_finished = acc.is_finished ∧ acc'.error = acc.error) ∨
    (och = some (create_error_chunk rid mo d) ∧ acc'.text = acc.text ∧
      acc'.is_finished = true ∧ acc'.error = some d) := by
  unfold process_single_dev_event at h
  split at h <;> first
    | (cases h; simp)
    | (split at h <;> cases h <;> simp)

/-- Invariants of the buffered-line loop: the identity fields and the
sticky flag are untouched, `is_finished` and the definedness of `error`
are monotone, the error-implies-finished invariant is preserved, and a
produced chunk is a content chunk appending its delta to `text` or an
error chunk; with no chunk, `text` is untouched. -/
theorem processLinesF_cases (P : JsonParsers) :
    ∀ (f : Nat) (st st' : DriverState) (och : Option ChatCompletionChunk),
    processLinesF P f st = (st', och) →
    st'.request_id = st.request_id ∧ st'.model_name = st.model_name ∧
    st'.final_chunk_sent = st.final_chunk_sent ∧
    (st.accumulator.is_finished = true → st'.accumulator.is_finished = true) ∧
    (st.accumulator.error.isSome = true → st'.accumulator.error.isSome = true) ∧
    ((st.accumulator.error.isSome = true → st.accumulator.is_finished = true) →
      st'.accumulator.error.isSome = true → st'.accumulator.is_finished = true) ∧
    ((och = none ∧ st'.accumulator.text = st.accumulator.text ∧
       st'.accumulator.is_finished = st.accumulator.is_finished ∧
       st'.accumulator.error = st.accumulator.error) ∨
     (∃ dd, och = some (create_content_chunk st.request_id st.model_name dd) ∧
       st'.accumulator.text = st.accumulator.text ++ dd ∧
       st'.accumulator.is_finished = st.accumulator.is_finished ∧
       st'.accumulator.error = st.accumulator.error) ∨
     (∃ dd, och = some (create_error_chunk st.request_id st.model_name dd) ∧
       st'.accumulator.text = st.accumulator.text ∧
       st'.accumulator.is_finished = true ∧ st'.accumulator.error = some dd)) := by
  intro f
  induction f with
  | zero =>
    intro st st' och h
    cases h
    simp
  | succ f ih =>
    intro st st' och h
    rw [processLinesF] at h
    split at h
    · cases h; simp
    · rename_i line restBuf heq
      dsimp only at h
      split at h
      · split at h
        · have := ih _ _ _ h
          simpa using this
        · split at h
          · rename_i acc1 c hdisp
            cases h
            have hd := dispatch_cases _ _ _ _ _ _ _ _ hdisp
            rcases hd with ⟨hno, -, -, -⟩ | ⟨hc, ht, hf, he⟩ | ⟨hc, ht, hf, he⟩
            · exact absurd hno (by simp)
            · refine ⟨rfl, rfl, rfl, ?_, ?_, ?_, ?_⟩
              · intro hx; show acc1.is_finished = true; rw [hf]; exact hx
              · intro hx; show acc1.error.isSome = true; rw [he]; exact hx
              · intro j hx
                show acc1.is_finished = true
                rw [hf]
                apply j
                show st.accumulator.error.isSome = true
                rw [← he]
                exact hx
              · right; left
                exact ⟨_, by rw [hc], ht, hf, he⟩
            · refine ⟨rfl, rfl, rfl, ?_, ?_, ?_, ?_⟩
              · intro hx; exact hf
              · intro hx; show acc1.error.isSome = true; rw [he]; rfl
              · intro j hx; exact hf
              · right; right
                exact ⟨_, by rw [hc], ht, hf, he⟩
          · rename_i acc1 hdisp
            have hd := dispatch_cases _ _ _ _ _ _ _ _ hdisp
            have hrec := ih _ _ _ h
            obtain ⟨h1, h2, h3, h4, h5, h6, h7⟩ := hrec
            rcases hd with ⟨-, ht, hf, he⟩ | ⟨hc, -⟩ | ⟨hc, -⟩
            · refine ⟨by simpa using h1, by simpa using h2, by simpa using h3, ?_, ?_, ?_, ?_⟩
              · intro hx
                apply h4
                show acc1.is_finished = true
                rw [hf]; exact hx
              · intro hx
                apply h5
                show acc1.error.isSome = true
                rw [he]; exact hx
              · intro j hx
                apply h6
                · intro hy
                  show acc1.is_finished = true
                  rw [hf]
                  apply j
                  show st.accumulator.error.isSome = true
                  rw [← he]; exact hy
                · exact hx
              · rcases h7 with ⟨hn, htx, hfi, her⟩ | ⟨dd, hch, htx, hfi, her⟩ | ⟨dd, hch, htx, hfi, her⟩
                · left
                  refine ⟨hn, ?_, ?_, ?_⟩
                  · rw [htx]
                    show acc1.text = st.accumulator.text
                    rw [ht]
                  · rw [hfi]
                    show acc1.is_finished = st.accumulator.is_finished
                    rw [hf]
                  · rw [her]
                    show acc1.error = st.accumulator.error
                    rw [he]
                · right; left
                  refine ⟨dd, by simpa using hch, ?_, ?_, ?_⟩
                  · rw [htx]
                    show acc1.text ++ dd = st.accumulator.text ++ dd
                    rw [ht]
                  · rw [hfi]
                    show acc1.is_finished = st.accumulator.is_finished
                    rw [hf]
                  · rw [her]
                    show acc1.error = st.accumulator.error
                    rw [he]
                · right; right
                  refine ⟨dd, by simpa using hch, ?_, hfi, her⟩
                  rw [htx]
                  show acc1.text = st.accumulator.text
                  rw [ht]
            · exact absurd hc (by simp)
            · exact absurd hc (by simp)
      all_goals
        have := ih _ _ _ h
        simpa using this

/-- A successful `splitFirstNl` decomposes the buffer, and the drained
line is non-empty. -/
theorem splitFirstNl_decomp :
    ∀ (l line rest : List Char), splitFirstNl l = some (line, rest) →
    l = line ++ rest ∧ 0 < line.length := by
  intro l
  induction l with
  | nil => intro line rest h; simp [splitFirstNl] at h
  | cons c cs ih =>
    intro line rest h
    rw [splitFirstNl] at h
    split at h
    · rename_i hc; cases h; simp [hc]
    · split at h
      · rename_i l' r' hp
        cases h
        obtain ⟨h1, -⟩ := ih _ _ hp
        exact ⟨by rw [h1]; simp, by simp⟩
      · cases h

/-- A failed `splitFirstNl` means the buffer holds no newline. -/
theorem splitFirstNl_none :
    ∀ (l : List Char), splitFirstNl l = none → '\n' ∉ l := by
  intro l
  induction l with
  | nil => intro _; simp
  | cons c cs ih =>
    intro h
    rw [splitFirstNl] at h
    split at h
    · cases h
    · rename_i hc
      split at h
      · cases h
      · rename_i hp
        have hcs := ih hp
        simp only [List.mem_cons]
        rintro (rfl | hm)
        · exact hc rfl
        · exact hcs hm

/-- Dropping a prefix preserves the last element (or empties the list). -/
theorem drop_getLast : ∀ (l : List Char) (k : Nat),
    l.drop k = [] ∨ (l.drop k).getLast? = l.getLast? := by
  intro l
  induction l with
  | nil => intro k; left; simp
  | cons c cs ih =>
    intro k
    match k with
    | 0 => right; rfl
    | k + 1 =>
      cases cs with
      | nil => left; simp
      | cons c2 cs2 =>
        rcases ih k with h | h
        · left; simpa using h
        · right
          rw [List.drop_succ_cons, h, List.getLast?_cons_cons]

/-- The buffered-line loop only ever drains the buffer from the front. -/
theorem processLinesF_drop (P : JsonParsers) :
    ∀ (f : Nat) (st st' : DriverState) (och : Option ChatCompletionChunk),
    processLinesF P f st = (st', och) →
    ∃ k, k ≤ st.decoder_buffer.length ∧
      st'.decoder_buffer = st.decoder_buffer.drop k := by
  intro f
  induction f with
  | zero =>
    intro st st' och h
    cases h
    exact ⟨0, by simp, by simp⟩
  | succ f ih =>
    intro st st' och h
    rw [processLinesF] at h
    split at h
    · cases h
      exact ⟨0, by simp, by simp⟩
    · rename_i line restBuf heq
      obtain ⟨hl, hlen⟩ := splitFirstNl_decomp _ _ _ heq
      have hlsum : st.decoder_buffer.length = line.length + restBuf.length := by
        rw [hl]; simp
      have key : ∀ (st'' : DriverState),
          (∃ k', k' ≤ restBuf.length ∧ st''.decoder_buffer = restBuf.drop k') →
          ∃ k, k ≤ st.decoder_buffer.length ∧
            st''.decoder_buffer = st.decoder_buffer.drop k := by
        rintro st'' ⟨k', hk', hb⟩
        refine ⟨line.length + k', by omega, ?_⟩
        rw [hb, hl, List.drop_append_eq_append_drop]
        have h1 : line.drop (line.length + k') = [] :=
          List.drop_eq_nil_of_le (by omega)
        have h2 : line.length + k' - line.length = k' := by omega
        rw [h1, h2]
        simp
      dsimp only at h
      split at h
      · split at h
        · exact key _ (ih _ _ _ h)
        · split at h
          · cases h
            exact key _ ⟨0, by simp, by simp⟩
          · exact key _ (ih _ _ _ h)
      all_goals exact key _ (ih _ _ _ h)

/-- With sufficient fuel (as supplied by `processLines`), the loop stops
with no chunk only when no complete line remains buffered. -/
theorem processLinesF_none_noNl (P : JsonParsers) :
    ∀ (f : Nat) (st st' : DriverState),
    st.decoder_buffer.length < f →
    processLinesF P f st = (st', none) →
    splitFirstNl st'.decoder_buffer = none := by
  intro f
  induction f with
  | zero =>
    intro st st' hf h
    omega
  | succ f ih =>
    intro st st' hf h
    rw [processLinesF] at h
    split at h
    · rename_i hnone
      cases h
      exact hnone
    · rename_i line restBuf heq
      obtain ⟨hl, hlen⟩ := splitFirstNl_decomp _ _ _ heq
      have hr : restBuf.length < f := by
        have : st.decoder_buffer.length = line.length + restBuf.length := by rw [hl]; simp
        omega
      dsimp only at h
      split at h
      · split at h
        · exact ih _ _ hr h
        · split at h
          · cases h
          · exact ih _ _ hr h
      all_goals exact ih _ _ hr h

/-- A residual line never touches the accumulator, the identity fields,
the flag or the buffer. -/
theorem residualLineStep_preserve (st : DriverState) (t : List Char) :
    (residualLineStep st t).accumulator = st.accumulator ∧
    (residualLineStep st t).request_id = st.request_id ∧
    (residualLineStep st t).model_name = st.model_name ∧
    (residualLineStep st t).final_chunk_sent = st.final_chunk_sent ∧
    (residualLineStep st t).decoder_buffer = st.decoder_buffer := by
  unfold residualLineStep
  split <;> simp

/-- The residual loop never touches the accumulator, the identity fields,
the flag or the buffer. -/
theorem residualLines_preserve :
    ∀ (ps : List (List Char)) (st : DriverState),
    (residualLines st ps).accumulator = st.accumulator ∧
    (residualLines st ps).request_id = st.request_id ∧
    (residualLines st ps).model_name = st.model_name ∧
    (residualLines st ps).final_chunk_sent = st.final_chunk_sent ∧
    (residualLines st ps).decoder_buffer = st.decoder_buffer := by
  intro ps
  induction ps with
  | nil =>
    intro st
    exact ⟨rfl, rfl, rfl, rfl, rfl⟩
  | cons p rest ih =>
    intro st
    cases rest with
    | nil =>
      have hunf : residualLines st [p] =
          (if (trimEndCr p).isEmpty then st else residualLineStep st (trimEndCr p)) := rfl
      rw [hunf]
      split
      · exact ⟨rfl, rfl, rfl, rfl, rfl⟩
      · exact residualLineStep_preserve st (trimEndCr p)
    | cons q rest2 =>
      have hunf : residualLines st (p :: q :: rest2) =
          residualLines (residualLineStep st (trimEndCr p)) (q :: rest2) := rfl
      rw [hunf]
      obtain ⟨a1, a2, a3, a4, a5⟩ := residualLineStep_preserve st (trimEndCr p)
      obtain ⟨b1, b2, b3, b4, b5⟩ := ih (residualLineStep st (trimEndCr p))
      exact ⟨by rw [b1, a1], by rw [b2, a2], by rw [b3, a3], by rw [b4, a4], by rw [b5, a5]⟩

/-- On an empty buffer the residual flush is the identity. -/
theorem residualFlush_self (P : JsonParsers) (st : DriverState)
    (h : st.decoder_buffer = []) : residualFlush P st = st := by
  unfold residualFlush
  rw [h]
  rfl

/-- Facts about the accumulator left by one dispatch, regardless of the
chunk: monotonicity of `is_finished` and of the definedness of `error`,
preservation of error-implies-finished, and text growth. -/
theorem dispatch_fst (P : JsonParsers) (acc : SseAccumulator) (e d rid mo : String) :
    (acc.is_finished = true →
      (process_single_dev_event P acc e d rid mo).1.is_finished = true) ∧
    (acc.error.isSome = true →
      (process_single_dev_event P acc e d rid mo).1.error.isSome = true) ∧
    ((acc.error.isSome = true → acc.is_finished = true) →
      (process_single_dev_event P acc e d rid mo).1.error.isSome = true →
      (process_single_dev_event P acc e d rid mo).1.is_finished = true) ∧
    (∃ r, (process_single_dev_event P acc e d rid mo).1.text = acc.text ++ r) := by
  rcases dispatch_cases P acc e d rid mo
      (process_single_dev_event P acc e d rid mo).1
      (process_single_dev_event P acc e d rid mo).2 rfl with
    ⟨-, ht, hf, he⟩ | ⟨-, ht, hf, he⟩ | ⟨-, ht, hf, he⟩
  · exact ⟨fun hx => by rw [hf]; exact hx, fun hx => by rw [he]; exact hx,
      fun j hx => by rw [hf]; exact j (by rwa [he] at hx),
      "", by rw [ht]; exact (String.append_empty _).symm⟩
  · exact ⟨fun hx => by rw [hf]; exact hx, fun hx => by rw [he]; exact hx,
      fun j hx => by rw [hf]; exact j (by rwa [he] at hx),
      d, ht⟩
  · exact ⟨fun hx => hf, fun hx => by rw [he]; rfl, fun j hx => hf,
      "", by rw [ht]; exact (String.append_empty _).symm⟩

/-- Invariants of the residual flush: identity fields and flag are kept,
`is_finished` and `error` definedness are monotone, the
error-implies-finished invariant is preserved, and the text only ever
grows by the (possibly empty) residually dispatched content. -/
theorem residualFlush_preserve (P : JsonParsers) (st : DriverState) :
    (residualFlush P st).request_id = st.request_id ∧
    (residualFlush P st).model_name = st.model_name ∧
    (residualFlush P st).final_chunk_sent = st.final_chunk_sent ∧
    (st.accumulator.is_finished = true → (residualFlush P st).accumulator.is_finished = true) ∧
    (st.accumulator.error.isSome = true → (residualFlush P st).accumulator.error.isSome = true) ∧
    ((st.accumulator.error.isSome = true → st.accumulator.is_finished = true) →
      (residualFlush P st).accumulator.error.isSome = true →
      (residualFlush P st).accumulator.is_finished = true) ∧
    (∃ r, (residualFlush P st).accumulator.text = st.accumulator.text ++ r) := by
  by_cases hb : st.decoder_buffer.isEmpty = true
  · rw [residualFlush_self P st (by simpa using hb)]
    exact ⟨rfl, rfl, rfl, fun hx => hx, fun hx => hx, fun j => j, "",
      (String.append_empty _).symm⟩
  · obtain ⟨a1, a2, a3, a4, a5⟩ :=
      residualLines_preserve (splitOnNl st.decoder_buffer) st
    by_cases hq : (residualLines st (splitOnNl st.decoder_buffer)).current_data_buffer.isEmpty = true
    · have hunf : residualFlush P st =
          { residualLines st (splitOnNl st.decoder_buffer) with decoder_buffer := [] } := by
        unfold residualFlush
        rw [if_neg hb]
        dsimp only
        rw [if_pos hq]
      rw [hunf]
      refine ⟨by simpa using a2, by simpa using a3, by simpa using a4, ?_, ?_, ?_, ?_⟩
      · intro hx
        show (residualLines st (splitOnNl st.decoder_buffer)).accumulator.is_finished = true
        rw [a1]; exact hx
      · intro hx
        show (residualLines st (splitOnNl st.decoder_buffer)).accumulator.error.isSome = true
        rw [a1]; exact hx
      · intro j hx
        show (residualLines st (splitOnNl st.decoder_buffer)).accumulator.is_finished = true
        rw [a1]
        apply j
        show st.accumulator.error.isSome = true
        rw [← a1]
        exact hx
      · exact ⟨"", by
          show (residualLines st (splitOnNl st.decoder_buffer)).accumulator.text = _
          rw [a1]
          exact (String.append_empty _).symm⟩
    · have hunf : residualFlush P st =
          { residualLines st (splitOnNl st.decoder_buffer) with
            decoder_buffer := []
            accumulator := (process_single_dev_event P
              (residualLines st (splitOnNl st.decoder_buffer)).accumulator
              (residualLines st (splitOnNl st.decoder_buffer)).current_event_name
              (joinNl (residualLines st (splitOnNl st.decoder_buffer)).current_data_buffer)
              (residualLines st (splitOnNl st.decoder_buffer)).request_id
              (residualLines st (splitOnNl st.decoder_buffer)).model_name).1 } := by
        unfold residualFlush
        rw [if_neg hb]
        dsimp only
        rw [if_neg hq]
      rw [hunf]
      obtain ⟨f1, f2, f3, r, fr⟩ := dispatch_fst P
        (residualLines st (splitOnNl st.decoder_buffer)).accumulator
        (residualLines st (splitOnNl st.decoder_buffer)).current_event_name
        (joinNl (residualLines st (splitOnNl st.decoder_buffer)).current_data_buffer)
        (residualLines st (splitOnNl st.decoder_buffer)).request_id
        (residualLines st (splitOnNl st.decoder_buffer)).model_name
      refine ⟨by simpa using a2, by simpa using a3, by simpa using a4,
        fun hx => f1 (by rw [a1]; exact hx),
        fun hx => f2 (by rw [a1]; exact hx),
        fun j hx => f3 (fun hy => by rw [a1]; exact j (by rwa [a1] at hy)) hx,
        r, ?_⟩
      rw [← a1]
      exact fr

/-- `update_related_questions` only recomputes `related_questions`. -/
theorem update_rq_preserve (acc : SseAccumulator) :
    (update_related_questions acc).text = acc.text ∧
    (update_related_questions acc).is_finished = acc.is_finished ∧
    (update_related_questions acc).error = acc.error := by
  unfold update_related_questions
  exact ⟨rfl, rfl, rfl⟩



/-- Helper: dropping within the first summand of an append. -/
theorem drop_append_le (l1 l2 : List Char) (k : Nat) (hk : k ≤ l1.length) :
    (l1 ++ l2).drop k = l1.drop k ++ l2 := by
  rw [List.drop_append_eq_append_drop]
  have h0 : k - l1.length = 0 := by omega
  rw [h0, List.drop_zero]

/-- Membership of the last element. -/
theorem mem_of_getLast (l : List Char) (a : Char) (h : l.getLast? = some a) :
    a ∈ l := by
  have hx : a ∈ l.getLast? := by rw [h]; rfl
  obtain ⟨hne, rfl⟩ := List.mem_getLast?_eq_getLast hx
  exact List.getLast_mem hne

/-- The residual flush always leaves an empty decode buffer. -/
theorem residualFlush_buffer (P : JsonParsers) (st : DriverState) :
    (residualFlush P st).decoder_buffer = [] := by
  unfold residualFlush
  split
  · rename_i hb
    simpa using hb
  · rfl

/-- One poll that stops at a chunk produced from buffered lines. -/
theorem pull_chunk_case (P : JsonParsers) (st st1 : DriverState)
    (c : ChatCompletionChunk) (input : List ByteItem)
    (heq : processLines P st = (st1, some c)) :
    PullFacts st input (.chunk c) st1 input := by
  obtain ⟨h1, h2, h3, h4, h5, h6, h7⟩ := processLinesF_cases P _ _ _ _ heq
  obtain ⟨k, hk, hbuf⟩ := processLinesF_drop P _ _ _ _ heq
  have hcombLen : (combChars st input).length =
      st.decoder_buffer.length + (decodedChars input).length := by
    simp [combChars]
  refine ⟨h1, h2, h4, h5, h6, ⟨k, by omega, ?_⟩, ?_⟩
  · show st1.decoder_buffer ++ decodedChars input = _
    rw [hbuf, combChars, drop_append_le _ _ _ hk]
  · rcases h7 with ⟨hno, -⟩ | ⟨dd, hch, htx, hfi, her⟩ | ⟨dd, hch, htx, hfi, her⟩
    · exact absurd hno (by simp)
    · left
      refine ⟨dd, ?_, htx, h3, hfi, her⟩
      have : c = create_content_chunk st.request_id st.model_name dd := by
        injection hch with hh
      rw [this]
    · right; left
      refine ⟨dd, ?_, htx, h3, hfi, her⟩
      have : c = create_error_chunk st.request_id st.model_name dd := by
        injection hch with hh
      rw [this]

/-- One poll whose buffered lines produced nothing and which then pushed
one byte batch: the poll facts compose. -/
theorem pull_push_compose (P : JsonParsers) (st st1 : DriverState) (bs : List Nat)
    (rest : List ByteItem) (out : OutItem) (st' : DriverState) (in' : List ByteItem)
    (heq : processLines P st = (st1, none))
    (pf : PullFacts { st1 with decoder_buffer := st1.decoder_buffer ++ decodeBatch bs }
      rest out st' in') :
    PullFacts st (.bytes bs :: rest) out st' in' := by
  obtain ⟨h1, h2, h3, h4, h5, h6, h7⟩ := processLinesF_cases P _ _ _ _ heq
  obtain ⟨hn, htext, hfin, herr⟩ :
      (none : Option ChatCompletionChunk) = none ∧
      st1.accumulator.text = st.accumulator.text ∧
      st1.accumulator.is_finished = st.accumulator.is_finished ∧
      st1.accumulator.error = st.accumulator.error := by
    rcases h7 with ⟨hno, ht, hf, he⟩ | ⟨dd, hch, -⟩ | ⟨dd, hch, -⟩
    · exact ⟨rfl, ht, hf, he⟩
    · exact absurd hch (by simp)
    · exact absurd hch (by simp)
  obtain ⟨k, hk, hbuf⟩ := processLinesF_drop P _ _ _ _ heq
  obtain ⟨p1, p2, p3, p4, p5, p6, p7⟩ := pf
  have hcombEq : combChars { st1 with decoder_buffer := st1.decoder_buffer ++ decodeBatch bs }
      rest = (combChars st (.bytes bs :: rest)).drop k := by
    show (st1.decoder_buffer ++ decodeBatch bs) ++ decodedChars rest = _
    rw [hbuf]
    show (st.decoder_buffer.drop k ++ decodeBatch bs) ++ decodedChars rest = _
    rw [combChars]
    show _ = (st.decoder_buffer ++ (decodeBatch bs ++ decodedChars rest)).drop k
    rw [drop_append_le _ _ _ hk, List.append_assoc]
  refine ⟨?_, ?_, ?_, ?_, ?_, ?_, ?_⟩
  · rw [p1]; exact h1
  · rw [p2]; exact h2
  · intro hx
    apply p3
    show st1.accumulator.is_finished = true
    rw [hfin]; exact hx
  · intro hx
    apply p4
    show st1.accumulator.error.isSome = true
    rw [herr]; exact hx
  · intro j hx
    apply p5
    · intro hy
      show st1.accumulator.is_finished = true
      rw [hfin]
      apply j
      show st.accumulator.error.isSome = true
      rw [← herr]
      exact hy
    · exact hx
  · obtain ⟨k', hk', hb'⟩ := p6
    refine ⟨k + k', ?_, ?_⟩
    · rw [hcombEq, List.length_drop] at hk'
      have hc : k ≤ (combChars st (.bytes bs :: rest)).length := by
        have : (combChars st (.bytes bs :: rest)).length =
            st.decoder_buffer.length + (decodeBatch bs ++ decodedChars rest).length := by
          simp [combChars, decodedChars]
        omega
      omega
    · rw [hb', hcombEq, List.drop_drop, Nat.add_comm]
  · have hstp_text :
        ({ st1 with decoder_buffer := st1.decoder_buffer ++ decodeBatch bs } :
          DriverState).accumulator.text = st.accumulator.text := htext
    have hstp_fin :
        ({ st1 with decoder_buffer := st1.decoder_buffer ++ decodeBatch bs } :
          DriverState).accumulator.is_finished = st.accumulator.is_finished := hfin
    have hstp_err :
        ({ st1 with decoder_buffer := st1.decoder_buffer ++ decodeBatch bs } :
          DriverState).accumulator.error = st.accumulator.error := herr
    rcases p7 with ⟨dd, hout, htx, hfl, hfi, her⟩ | ⟨dd, hout, htx, hfl, hfi, her⟩ |
        ⟨hout, hfl, hsf, hfi, hin, ⟨r, hr⟩, hce⟩ | ⟨hout, hfl, htx, hfi, her⟩
    · left
      refine ⟨dd, ?_, ?_, ?_, ?_, ?_⟩
      · rw [hout]
        show OutItem.chunk (create_content_chunk st1.request_id st1.model_name dd) = _
        rw [h1, h2]
      · rw [htx, hstp_text]
      · rw [hfl]; exact h3
      · rw [hfi, hstp_fin]
      · rw [her, hstp_err]
    · right; left
      refine ⟨dd, ?_, ?_, ?_, hfi, her⟩
      · rw [hout]
        show OutItem.chunk (create_error_chunk st1.request_id st1.model_name dd) = _
        rw [h1, h2]
      · rw [htx, hstp_text]
      · rw [hfl]; exact h3
    · right; right; left
      have hstfin : st.accumulator.is_finished = false := by
        rcases hfb : st.accumulator.is_finished with _ | _
        · rfl
        · have : st1.accumulator.is_finished = true := by rw [hfin]; exact hfb
          rw [show ({ st1 with decoder_buffer :=
              st1.decoder_buffer ++ decodeBatch bs } : DriverState).accumulator.is_finished
              = st1.accumulator.is_finished from rfl, this] at hsf
          cases hsf
      refine ⟨?_, hfl, hstfin, hfi, hin, ⟨r, by rw [hr, hstp_text]⟩, ?_⟩
      · rw [hout]
        show OutItem.chunk (create_final_chunk st1.request_id st1.model_name "stop") = _
        rw [h1, h2]
      · intro hce'
        have hends : combEnds { st1 with decoder_buffer :=
            st1.decoder_buffer ++ decodeBatch bs } rest := by
          rcases hce' with hce' | hce'
          · left
            rw [hcombEq, hce']
            simp
          · rcases drop_getLast (combChars st (.bytes bs :: rest)) k with hd | hd
            · left
              rw [hcombEq, hd]
            · right
              rw [hcombEq, hd]
              exact hce'
        rw [hce hends, hstp_text]
    · right; right; right
      exact ⟨hout, hfl, by rw [htx, hstp_text], by rw [hfi, hstp_fin],
        by rw [her, hstp_err]⟩


/-- One poll that yields a transport-error result. -/
theorem pull_transport_case (P : JsonParsers) (st st1 : DriverState)
    (rest : List ByteItem) (heq : processLines P st = (st1, none)) :
    PullFacts st (.transportError :: rest) .streamError
      { st1 with final_chunk_sent := true } rest := by
  obtain ⟨h1, h2, h3, h4, h5, h6, h7⟩ := processLinesF_cases P _ _ _ _ heq
  obtain ⟨hn, htext, hfin, herr⟩ :
      (none : Option ChatCompletionChunk) = none ∧
      st1.accumulator.text = st.accumulator.text ∧
      st1.accumulator.is_finished = st.accumulator.is_finished ∧
      st1.accumulator.error = st.accumulator.error := by
    rcases h7 with ⟨hno, ht, hf, he⟩ | ⟨dd, hch, -⟩ | ⟨dd, hch, -⟩
    · exact ⟨rfl, ht, hf, he⟩
    · exact absurd hch (by simp)
    · exact absurd hch (by simp)
  obtain ⟨k, hk, hbuf⟩ := processLinesF_drop P _ _ _ _ heq
  refine ⟨h1, h2, ?_, ?_, ?_, ⟨k, ?_, ?_⟩, ?_⟩
  · intro hx
    show st1.accumulator.is_finished = true
    rw [hfin]; exact hx
  · intro hx
    show st1.accumulator.error.isSome = true
    rw [herr]; exact hx
  · intro j hx
    show st1.accumulator.is_finished = true
    rw [hfin]
    apply j
    show st.accumulator.error.isSome = true
    rw [← herr]
    exact hx
  · have : (combChars st (.transportError :: rest)).length =
        st.decoder_buffer.length + (decodedChars rest).length := by
      simp [combChars, decodedChars]
    omega
  · show st1.decoder_buffer ++ decodedChars rest = _
    rw [hbuf]
    show _ = (st.decoder_buffer ++ decodedChars (.transportError :: rest)).drop k
    show _ = (st.decoder_buffer ++ decodedChars rest).drop k
    rw [drop_append_le _ _ _ hk]
  · right; right; right
    exact ⟨rfl, rfl, htext, hfin, herr⟩

/-- One poll that runs the termination protocol and yields the final
`"stop"` chunk. -/
theorem pull_eof_case (P : JsonParsers) (st st1 : DriverState)
    (heq : processLines P st = (st1, none))
    (hfin : ¬ (residualFlush P st1).accumulator.is_finished = true) :
    PullFacts st [] (.chunk (create_final_chunk (residualFlush P st1).request_id
        (residualFlush P st1).model_name "stop"))
      { residualFlush P st1 with
        final_chunk_sent := true
        accumulator := update_related_questions
          { (residualFlush P st1).accumulator with is_finished := true } } [] := by
  obtain ⟨h1, h2, h3, h4, h5, h6, h7⟩ := processLinesF_cases P _ _ _ _ heq
  obtain ⟨hn, htext, hfi1, herr1⟩ :
      (none : Option ChatCompletionChunk) = none ∧
      st1.accumulator.text = st.accumulator.text ∧
      st1.accumulator.is_finished = st.accumulator.is_finished ∧
      st1.accumulator.error = st.accumulator.error := by
    rcases h7 with ⟨hno, ht, hf, he⟩ | ⟨dd, hch, -⟩ | ⟨dd, hch, -⟩
    · exact ⟨rfl, ht, hf, he⟩
    · exact absurd hch (by simp)
    · exact absurd hch (by simp)
  obtain ⟨k, hk, hbuf⟩ := processLinesF_drop P _ _ _ _ heq
  have hnoNl : splitFirstNl st1.decoder_buffer = none :=
    processLinesF_none_noNl P _ _ _ (Nat.lt_succ_self _) heq
  obtain ⟨r1, r2, r3, r4, r5, r6, rr, hrtext⟩ := residualFlush_preserve P st1
  obtain ⟨u1, u2, u3⟩ := update_rq_preserve
    { (residualFlush P st1).accumulator with is_finished := true }
  have hfinal : (update_related_questions
      { (residualFlush P st1).accumulator with is_finished := true }).is_finished
      = true := by
    rw [u2]
  have herrupd : (update_related_questions
      { (residualFlush P st1).accumulator with is_finished := true }).error
      = (residualFlush P st1).accumulator.error := by
    rw [u3]
  have htextupd : (update_related_questions
      { (residualFlush P st1).accumulator with is_finished := true }).text
      = (residualFlush P st1).accumulator.text := by
    rw [u1]
  have hstfin : st.accumulator.is_finished = false := by
    rcases hfb : st.accumulator.is_finished with _ | _
    · rfl
    · exact absurd (r4 (by rw [hfi1]; exact hfb)) hfin
  refine ⟨?_, ?_, ?_, ?_, ?_, ?_, ?_⟩
  · show (residualFlush P st1).request_id = st.request_id
    rw [r1, h1]
  · show (residualFlush P st1).model_name = st.model_name
    rw [r2, h2]
  · intro hx
    exact hfinal
  · intro hx
    show (update_related_questions _).error.isSome = true
    rw [herrupd]
    show (residualFlush P st1).accumulator.error.isSome = true
    apply r5
    show st1.accumulator.error.isSome = true
    rw [herr1]
    exact hx
  · intro j hx
    exact hfinal
  · refine ⟨(combChars st []).length, Nat.le_refl _, ?_⟩
    rw [List.drop_length]
    show (residualFlush P st1).decoder_buffer ++ decodedChars [] = []
    rw [residualFlush_buffer]
    rfl
  · right; right; left
    refine ⟨?_, rfl, hstfin, hfinal, rfl, ⟨rr, ?_⟩, ?_⟩
    · show OutItem.chunk (create_final_chunk (residualFlush P st1).request_id
        (residualFlush P st1).model_name "stop") = _
      rw [r1, h1, r2, h2]
    · show (update_related_questions _).text = _
      rw [htextupd, hrtext, htext]
    · intro hce
      have hcomb0 : combChars st [] = st.decoder_buffer := by
        simp [combChars, decodedChars]
      have hb0 : st1.decoder_buffer = [] := by
        rcases hce with hce | hce
        · rw [hcomb0] at hce
          rw [hbuf, hce]
          simp
        · rw [hcomb0] at hce
          rcases drop_getLast st.decoder_buffer k with hd | hd
          · rw [hbuf, hd]
          · exfalso
            apply splitFirstNl_none _ hnoNl
            apply mem_of_getLast st1.decoder_buffer '\n'
            rw [hbuf, hd, hce]
      show (update_related_questions _).text = _
      rw [htextupd, residualFlush_self P st1 hb0, htext]

/-- Full case analysis of one inner driver loop run (`pullLoop`). -/
theorem pullLoop_cases (P : JsonParsers) :
    ∀ (input : List ByteItem) (st : DriverState) (out : OutItem)
      (st' : DriverState) (in' : List ByteItem),
    pullLoop P st input = some (out, st', in') →
    PullFacts st input out st' in' := by
  intro input
  induction input with
  | nil =>
    intro st out st' in' h
    rw [pullLoop] at h
    split at h
    · rename_i st1 c heq
      cases h
      exact pull_chunk_case P st _ _ _ heq
    · rename_i st1 heq
      dsimp only at h
      split at h
      · cases h
      · rename_i hfin
        cases h
        exact pull_eof_case P st _ heq hfin
  | cons item rest ih =>
    intro st out st' in' h
    rw [pullLoop] at h
    split at h
    · rename_i st1 c heq
      cases h
      exact pull_chunk_case P st _ _ _ heq
    · rename_i st1 heq
      cases item with
      | bytes bs =>
        dsimp only at h
        exact pull_push_compose P st st1 bs rest out st' in' heq (ih _ _ _ _ h)
      | transportError =>
        dsimp only at h
        cases h
        exact pull_transport_case P st _ _ heq

/-- Full case analysis of one poll (`pullNext`): a yield additionally
implies the sticky flag was still clear. -/
theorem pullNext_cases (P : JsonParsers) (st : DriverState) (input : List ByteItem)
    (out : OutItem) (st' : DriverState) (in' : List ByteItem)
    (h : pullNext P st input = some (out, st', in')) :
    st.final_chunk_sent = false ∧ PullFacts st input out st' in' := by
  unfold pullNext at h
  split at h
  · cases h
  · rename_i hflag
    have hf : st.final_chunk_sent = false := by
      rcases hfb : st.final_chunk_sent with _ | _
      · rfl
      · exact absurd hfb hflag
    exact ⟨hf, pullLoop_cases P input st out st' in' h⟩


/-! ### Chunk shapes and run-level lemmas -/

theorem hasFinish_content (rid mo dd : String) :
    hasFinish (create_content_chunk rid mo dd) = false := rfl

theorem hasFinish_error (rid mo dd : String) :
    hasFinish (create_error_chunk rid mo dd) = true := rfl

theorem hasFinish_final (rid mo fr : String) :
    hasFinish (create_final_chunk rid mo fr) = true := rfl

theorem finalShape_content (rid mo dd : String) :
    finalShape (create_content_chunk rid mo dd) = false := rfl

theorem finalShape_error (rid mo dd : String) :
    finalShape (create_error_chunk rid mo dd) = false := rfl

theorem finalShape_final (rid mo fr : String) :
    finalShape (create_final_chunk rid mo fr) = true := rfl

theorem errorShape_content (rid mo dd : String) :
    errorShape (create_content_chunk rid mo dd) = false := rfl

theorem errorShape_error (rid mo dd : String) :
    errorShape (create_error_chunk rid mo dd) = true := rfl

theorem errorShape_final (rid mo fr : String) :
    errorShape (create_final_chunk rid mo fr) = false := rfl

theorem contentDeltaOf_content (rid mo dd : String) :
    contentDeltaOf (.chunk (create_content_chunk rid mo dd)) = some dd := rfl

theorem contentDeltaOf_error (rid mo dd : String) :
    contentDeltaOf (.chunk (create_error_chunk rid mo dd)) = none := rfl

theorem contentDeltaOf_final (rid mo fr : String) :
    contentDeltaOf (.chunk (create_final_chunk rid mo fr)) = none := rfl

theorem contentConcat_nil : contentConcat [] = "" := rfl

theorem contentConcat_cons_some (o : OutItem) (outs : List OutItem) (d : String)
    (h : contentDeltaOf o = some d) :
    contentConcat (o :: outs) = d ++ contentConcat outs := by
  simp [contentConcat, List.filterMap_cons, h]

theorem contentConcat_cons_none (o : OutItem) (outs : List OutItem)
    (h : contentDeltaOf o = none) :
    contentConcat (o :: outs) = contentConcat outs := by
  simp [contentConcat, List.filterMap_cons, h]

/-- A run from a state whose sticky flag is set yields nothing. -/
theorem runPullsF_flagged (P : JsonParsers) (f : Nat) (st : DriverState)
    (input : List ByteItem) (h : st.final_chunk_sent = true) :
    runPullsF P f st input = ([], st) := by
  cases f with
  | zero => rfl
  | succ f => simp [runPullsF, pullNext, h]

/-- A run from a finished accumulator never yields the empty-delta final
chunk (the termination protocol is suppressed; error chunks may still
appear). -/
theorem runPullsF_finished_no_final (P : JsonParsers) :
    ∀ (f : Nat) (st : DriverState) (input : List ByteItem),
    st.accumulator.is_finished = true →
    ((runPullsF P f st input).1.all (fun o => !isFinalOut o)) = true := by
  intro f
  induction f with
  | zero => intro st input hfin; rfl
  | succ f ih =>
    intro st input hfin
    rw [runPullsF]
    split
    · rfl
    · rename_i out st1 in1 hp
      split
      rename_i outs fin hrec
      obtain ⟨hflag, p1, p2, p3, p4, p5, p6, p7⟩ := pullNext_cases P _ _ _ _ _ hp
      have hrec1 : (runPullsF P f st1 in1).1.all (fun o => !isFinalOut o) = true := by
        apply ih
        exact p3 hfin
      rw [hrec] at hrec1
      have hout : (!isFinalOut out) = true := by
        rcases p7 with ⟨dd, hout, -⟩ | ⟨dd, hout, -⟩ | ⟨hout, -, hsf, -⟩ | ⟨hout, -⟩
        · rw [hout]
          show (!finalShape (create_content_chunk st.request_id st.model_name dd)) = true
          rw [finalShape_content]
          rfl
        · rw [hout]
          show (!finalShape (create_error_chunk st.request_id st.model_name dd)) = true
          rw [finalShape_error]
          rfl
        · rw [hfin] at hsf
          cases hsf
        · rw [hout]
          rfl
      show (out :: outs).all (fun o => !isFinalOut o) = true
      rw [List.all_cons, hout, hrec1]
      rfl

/-- A run preserves definedness of the accumulator error. -/
theorem runPullsF_error_mono (P : JsonParsers) :
    ∀ (f : Nat) (st : DriverState) (input : List ByteItem),
    st.accumulator.error.isSome = true →
    (runPullsF P f st input).2.accumulator.error.isSome = true := by
  intro f
  induction f with
  | zero => intro st input h; exact h
  | succ f ih =>
    intro st input h
    rw [runPullsF]
    split
    · exact h
    · rename_i out st1 in1 hp
      split
      rename_i outs fin hrec
      obtain ⟨hflag, p1, p2, p3, p4, p5, p6, p7⟩ := pullNext_cases P _ _ _ _ _ hp
      have := ih st1 in1 (p4 h)
      rw [hrec] at this
      exact this

/-- A run preserves the error-implies-finished invariant. -/
theorem runPullsF_inv (P : JsonParsers) :
    ∀ (f : Nat) (st : DriverState) (input : List ByteItem),
    (st.accumulator.error.isSome = true → st.accumulator.is_finished = true) →
    (runPullsF P f st input).2.accumulator.error.isSome = true →
    (runPullsF P f st input).2.accumulator.is_finished = true := by
  intro f
  induction f with
  | zero => intro st input j h; exact j h
  | succ f ih =>
    intro st input j h
    rw [runPullsF] at h ⊢
    rcases hp : pullNext P st input with _ | ⟨out, st1, in1⟩
    · simp only [hp] at h ⊢
      exact j h
    · simp only [hp] at h ⊢
      rcases hrec : runPullsF P f st1 in1 with ⟨outs, fin⟩
      simp only [hrec] at h ⊢
      obtain ⟨hflag, p1, p2, p3, p4, p5, p6, p7⟩ := pullNext_cases P _ _ _ _ _ hp
      have hx := ih st1 in1 (p5 j)
      rw [hrec] at hx
      exact hx h


theorem contentDeltaOf_streamError : contentDeltaOf .streamError = none := rfl

/-- In any trace whose final accumulator carries no error, a chunk with a
non-null finish reason is the last yielded item. -/
theorem trace_finish_last (P : JsonParsers) :
    ∀ (f : Nat) (st : DriverState) (input : List ByteItem)
      (l1 : List OutItem) (c : ChatCompletionChunk) (l2 : List OutItem),
    (runPullsF P f st input).2.accumulator.error = none →
    (runPullsF P f st input).1 = l1 ++ .chunk c :: l2 →
    hasFinish c = true → l2 = [] := by
  intro f
  induction f with
  | zero =>
    intro st input l1 c l2 herr hlist hc
    exact absurd hlist (by simp [runPullsF])
  | succ f ih =>
    intro st input l1 c l2 herr hlist hc
    rw [runPullsF] at herr hlist
    rcases hp : pullNext P st input with _ | ⟨out, st1, in1⟩
    · simp only [hp] at hlist
      exact absurd hlist (by simp)
    · simp only [hp] at herr hlist
      rcases hrec : runPullsF P f st1 in1 with ⟨outs, fin⟩
      simp only [hrec] at herr hlist
      obtain ⟨hflag, p1, p2, p3, p4, p5, p6, p7⟩ := pullNext_cases P _ _ _ _ _ hp
      cases l1 with
      | nil =>
        simp only [List.nil_append] at hlist
        injection hlist with hout houts
        rcases p7 with ⟨dd, ho, -, -, -, -⟩ | ⟨dd, ho, -, -, -, herr1⟩ |
            ⟨ho, hfl, -, -, -, -, -⟩ | ⟨ho, -, -, -, -⟩
        · rw [ho] at hout
          have hcc : c = create_content_chunk st.request_id st.model_name dd := by
            injection hout with hh
            exact hh.symm
          rw [hcc, hasFinish_content] at hc
          cases hc
        · exfalso
          have h1 : st1.accumulator.error.isSome = true := by rw [herr1]; rfl
          have h2 := runPullsF_error_mono P f st1 in1 h1
          rw [hrec] at h2
          rw [herr] at h2
          cases h2
        · have hfd := runPullsF_flagged P f st1 in1 hfl
          rw [hfd] at hrec
          injection hrec with ho1 ho2
          rw [← houts, ← ho1]
        · rw [ho] at hout
          cases hout
      | cons o l1x =>
        simp only [List.cons_append] at hlist
        injection hlist with hout houts
        refine ih st1 in1 l1x c l2 ?_ ?_ hc
        · rw [hrec]
          exact herr
        · rw [hrec]
          exact houts

/-- After an error chunk no empty-delta final chunk is ever yielded. -/
theorem trace_no_final_after_error (P : JsonParsers) :
    ∀ (f : Nat) (st : DriverState) (input : List ByteItem)
      (l1 : List OutItem) (c : ChatCompletionChunk) (l2 : List OutItem),
    (runPullsF P f st input).1 = l1 ++ .chunk c :: l2 →
    errorShape c = true →
    l2.all (fun o => !isFinalOut o) = true := by
  intro f
  induction f with
  | zero =>
    intro st input l1 c l2 hlist hc
    exact absurd hlist (by simp [runPullsF])
  | succ f ih =>
    intro st input l1 c l2 hlist hc
    rw [runPullsF] at hlist
    rcases hp : pullNext P st input with _ | ⟨out, st1, in1⟩
    · simp only [hp] at hlist
      exact absurd hlist (by simp)
    · simp only [hp] at hlist
      rcases hrec : runPullsF P f st1 in1 with ⟨outs, fin⟩
      simp only [hrec] at hlist
      obtain ⟨hflag, p1, p2, p3, p4, p5, p6, p7⟩ := pullNext_cases P _ _ _ _ _ hp
      cases l1 with
      | nil =>
        simp only [List.nil_append] at hlist
        injection hlist with hout houts
        rcases p7 with ⟨dd, ho, -, -, -, -⟩ | ⟨dd, ho, -, -, hfi, -⟩ |
            ⟨ho, -, -, -, -, -, -⟩ | ⟨ho, -, -, -, -⟩
        · rw [ho] at hout
          have hcc : c = create_content_chunk st.request_id st.model_name dd := by
            injection hout with hh
            exact hh.symm
          rw [hcc, errorShape_content] at hc
          cases hc
        · have hall := runPullsF_finished_no_final P f st1 in1 hfi
          rw [hrec] at hall
          rw [← houts]
          exact hall
        · rw [ho] at hout
          have hcc : c = create_final_chunk st.request_id st.model_name "stop" := by
            injection hout with hh
            exact hh.symm
          rw [hcc, errorShape_final] at hc
          cases hc
        · rw [ho] at hout
          cases hout
      | cons o l1x =>
        simp only [List.cons_append] at hlist
        injection hlist with hout houts
        refine ih st1 in1 l1x c l2 ?_ hc
        rw [hrec]
        exact houts

/-- A terminal emission (final chunk or transport-error result) is always
the last yielded item of a trace. -/
theorem trace_terminal_last (P : JsonParsers) :
    ∀ (f : Nat) (st : DriverState) (input : List ByteItem)
      (l1 : List OutItem) (o : OutItem) (l2 : List OutItem),
    (runPullsF P f st input).1 = l1 ++ o :: l2 →
    isTerminalOut o = true → l2 = [] := by
  intro f
  induction f with
  | zero =>
    intro st input l1 o l2 hlist hc
    exact absurd hlist (by simp [runPullsF])
  | succ f ih =>
    intro st input l1 o l2 hlist hc
    rw [runPullsF] at hlist
    rcases hp : pullNext P st input with _ | ⟨out, st1, in1⟩
    · simp only [hp] at hlist
      exact absurd hlist (by simp)
    · simp only [hp] at hlist
      rcases hrec : runPullsF P f st1 in1 with ⟨outs, fin⟩
      simp only [hrec] at hlist
      obtain ⟨hflag, p1, p2, p3, p4, p5, p6, p7⟩ := pullNext_cases P _ _ _ _ _ hp
      cases l1 with
      | nil =>
        simp only [List.nil_append] at hlist
        injection hlist with hout houts
        rcases p7 with ⟨dd, ho, -, -, -, -⟩ | ⟨dd, ho, -, -, -, -⟩ |
            ⟨ho, hfl, -, -, -, -, -⟩ | ⟨ho, hfl, -, -, -⟩
        · rw [ho] at hout
          rw [← hout] at hc
          rw [show isTerminalOut (.chunk (create_content_chunk st.request_id
            st.model_name dd)) = false from rfl] at hc
          cases hc
        · rw [ho] at hout
          rw [← hout] at hc
          rw [show isTerminalOut (.chunk (create_error_chunk st.request_id
            st.model_name dd)) = false from rfl] at hc
          cases hc
        · have hfd := runPullsF_flagged P f st1 in1 hfl
          rw [hfd] at hrec
          injection hrec with ho1 ho2
          rw [← houts, ← ho1]
        · have hfd := runPullsF_flagged P f st1 in1 hfl
          rw [hfd] at hrec
          injection hrec with ho1 ho2
          rw [← houts, ← ho1]
      | cons o2 l1x =>
        simp only [List.cons_append] at hlist
        injection hlist with hout houts
        refine ih st1 in1 l1x o l2 ?_ hc
        rw [hrec]
        exact houts

/-- The accumulated text always extends the concatenation of the yielded
content deltas. -/
theorem trace_text_grows (P : JsonParsers) :
    ∀ (f : Nat) (st : DriverState) (input : List ByteItem),
    ∃ r, (runPullsF P f st input).2.accumulator.text
      = st.accumulator.text ++ contentConcat (runPullsF P f st input).1 ++ r := by
  intro f
  induction f with
  | zero =>
    intro st input
    refine ⟨"", ?_⟩
    show st.accumulator.text = st.accumulator.text ++ contentConcat [] ++ ""
    rw [contentConcat_nil, String.append_empty, String.append_empty]
  | succ f ih =>
    intro st input
    rw [runPullsF]
    rcases hp : pullNext P st input with _ | ⟨out, st1, in1⟩
    · simp only [hp]
      refine ⟨"", ?_⟩
      show st.accumulator.text = st.accumulator.text ++ contentConcat [] ++ ""
      rw [contentConcat_nil, String.append_empty, String.append_empty]
    · simp only [hp]
      rcases hrec : runPullsF P f st1 in1 with ⟨outs, fin⟩
      simp only [hrec]
      obtain ⟨hflag, p1, p2, p3, p4, p5, p6, p7⟩ := pullNext_cases P _ _ _ _ _ hp
      obtain ⟨r, hr⟩ := ih st1 in1
      rw [hrec] at hr
      rcases p7 with ⟨dd, ho, htx, -, -, -⟩ | ⟨dd, ho, htx, -, -, -⟩ |
          ⟨ho, hfl, -, -, -, ⟨r0, hr0⟩, -⟩ | ⟨ho, hfl, htx, -, -⟩
      · refine ⟨r, ?_⟩
        rw [contentConcat_cons_some out outs dd (by rw [ho]; rfl), hr, htx,
          String.append_assoc st.accumulator.text dd (contentConcat outs)]
      · refine ⟨r, ?_⟩
        rw [contentConcat_cons_none out outs (by rw [ho]; rfl), hr, htx]
      · have hfd := runPullsF_flagged P f st1 in1 hfl
        rw [hfd] at hrec
        injection hrec with ho1 ho2
        refine ⟨r0, ?_⟩
        rw [← ho1, contentConcat_cons_none out [] (by rw [ho]; rfl),
          contentConcat_nil, String.append_empty, ← ho2, hr0]
      · have hfd := runPullsF_flagged P f st1 in1 hfl
        rw [hfd] at hrec
        injection hrec with ho1 ho2
        refine ⟨"", ?_⟩
        rw [← ho1, contentConcat_cons_none out [] (by rw [ho]; rfl),
          contentConcat_nil, String.append_empty, String.append_empty, ← ho2, htx]

/-- Propagation of the ends-with-newline condition along a poll. -/
theorem combEnds_drop (st : DriverState) (input : List ByteItem)
    (st1 : DriverState) (in1 : List ByteItem) (k : Nat)
    (hdrop : combChars st1 in1 = (combChars st input).drop k)
    (hce : combEnds st input) : combEnds st1 in1 := by
  rcases hce with hce | hce
  · left
    rw [hdrop, hce]
    simp
  · rcases drop_getLast (combChars st input) k with hd | hd
    · left
      rw [hdrop, hd]
    · right
      rw [hdrop, hd]
      exact hce

/-- When the decoded upstream character stream ends with a newline (or is
empty), the accumulated text equals the concatenation of the yielded
content deltas exactly. -/
theorem trace_text_eq (P : JsonParsers) :
    ∀ (f : Nat) (st : DriverState) (input : List ByteItem),
    combEnds st input →
    (runPullsF P f st input).2.accumulator.text
      = st.accumulator.text ++ contentConcat (runPullsF P f st input).1 := by
  intro f
  induction f with
  | zero =>
    intro st input hce
    show st.accumulator.text = st.accumulator.text ++ contentConcat []
    rw [contentConcat_nil, String.append_empty]
  | succ f ih =>
    intro st input hce
    rw [runPullsF]
    rcases hp : pullNext P st input with _ | ⟨out, st1, in1⟩
    · simp only [hp]
      show st.accumulator.text = st.accumulator.text ++ contentConcat []
      rw [contentConcat_nil, String.append_empty]
    · simp only [hp]
      rcases hrec : runPullsF P f st1 in1 with ⟨outs, fin⟩
      simp only [hrec]
      obtain ⟨hflag, p1, p2, p3, p4, p5, ⟨k, hk, hdrop⟩, p7⟩ := pullNext_cases P _ _ _ _ _ hp
      have hce1 : combEnds st1 in1 := combEnds_drop st input st1 in1 k hdrop hce
      have hr := ih st1 in1 hce1
      rw [hrec] at hr
      rcases p7 with ⟨dd, ho, htx, -, -, -⟩ | ⟨dd, ho, htx, -, -, -⟩ |
          ⟨ho, hfl, -, -, -, -, hcet⟩ | ⟨ho, hfl, htx, -, -⟩
      · rw [contentConcat_cons_some out outs dd (by rw [ho]; rfl), hr, htx,
          String.append_assoc st.accumulator.text dd (contentConcat outs)]
      · rw [contentConcat_cons_none out outs (by rw [ho]; rfl), hr, htx]
      · have hfd := runPullsF_flagged P f st1 in1 hfl
        rw [hfd] at hrec
        injection hrec with ho1 ho2
        rw [← ho1, contentConcat_cons_none out [] (by rw [ho]; rfl),
          contentConcat_nil, String.append_empty, ← ho2, hcet hce]
      · have hfd := runPullsF_flagged P f st1 in1 hfl
        rw [hfd] at hrec
        injection hrec with ho1 ho2
        rw [← ho1, contentConcat_cons_none out [] (by rw [ho]; rfl),
          contentConcat_nil, String.append_empty, ← ho2, htx]


/-- C7.  An `error` event with payload `m` sets `accumulator.error` to
`some m`, marks the accumulator finished, and returns the error chunk
(assistant role, `[STREAM_ERROR]: m` content, `finish_reason = "stop"`);
and from any finished accumulator state the driver never emits an
additional empty-delta final chunk, so the subsequent EOF terminates the
stream without one. -/
theorem c7_error_event :
    (∀ (P : JsonParsers) (acc : SseAccumulator) (m rid mo : String),
      process_single_dev_event P acc "error" m rid mo =
        ({ acc with error := some m, is_finished := true },
         some (create_error_chunk rid mo m))) ∧
    (∀ (P : JsonParsers) (f : Nat) (st : DriverState) (input : List ByteItem),
      st.accumulator.is_finished = true →
      ((runPullsF P f st input).1.all (fun o => !isFinalOut o)) = true) := by
  exact ⟨fun P acc m rid mo => rfl, fun P => runPullsF_finished_no_final P⟩

theorem c7_witness :
    process_single_dev_event noParsers ({} : SseAccumulator) "error" "boom"
      "req-1" "test-model" =
      ({ ({} : SseAccumulator) with error := some "boom", is_finished := true },
       some (create_error_chunk "req-1" "test-model" "boom")) ∧
    ((runPullsF noParsers 3 { initialState testOptions "req-1" with
        accumulator := { is_finished := true } } []).1.all (fun o => !isFinalOut o)) = true := by
  exact ⟨c7_error_event.1 noParsers ({} : SseAccumulator) "boom" "req-1" "test-model",
    c7_error_event.2 noParsers 3 _ [] (by decide)⟩

/-- C10.  The sticky `final_chunk_sent` flag: a poll from a flagged state
returns end-of-stream immediately and unchanged; any yielded terminal
item (final `"stop"` chunk or transport-error result) leaves the
successor state flagged; a whole run from a flagged state yields nothing
and has no side effects; and a terminal item is always the last item of
any trace. -/
theorem c10_sticky_terminal :
    (∀ (P : JsonParsers) (st : DriverState) (input : List ByteItem),
      st.final_chunk_sent = true → pullNext P st input = none) ∧
    (∀ (P : JsonParsers) (st : DriverState) (input : List ByteItem)
       (out : OutItem) (st' : DriverState) (in' : List ByteItem),
      pullNext P st input = some (out, st', in') → isTerminalOut out = true →
      st'.final_chunk_sent = true) ∧
    (∀ (P : JsonParsers) (f : Nat) (st : DriverState) (input : List ByteItem),
      st.final_chunk_sent = true → runPullsF P f st input = ([], st)) ∧
    (∀ (P : JsonParsers) (f : Nat) (st : DriverState) (input : List ByteItem)
       (l1 : List OutItem) (o : OutItem) (l2 : List OutItem),
      (runPullsF P f st input).1 = l1 ++ o :: l2 → isTerminalOut o = true →
      l2 = []) := by
  refine ⟨?_, ?_, ?_, ?_⟩
  · intro P st input h
    unfold pullNext
    rw [if_pos h]
  · intro P st input out st' in' hp hterm
    obtain ⟨-, p1, p2, p3, p4, p5, p6, p7⟩ := pullNext_cases P _ _ _ _ _ hp
    rcases p7 with ⟨dd, ho, -, -, -, -⟩ | ⟨dd, ho, -, -, -, -⟩ |
        ⟨-, hfl, -, -, -, -, -⟩ | ⟨-, hfl, -, -, -⟩
    · rw [ho, show isTerminalOut (.chunk (create_content_chunk st.request_id
        st.model_name dd)) = false from rfl] at hterm
      cases hterm
    · rw [ho, show isTerminalOut (.chunk (create_error_chunk st.request_id
        st.model_name dd)) = false from rfl] at hterm
      cases hterm
    · exact hfl
    · exact hfl
  · intro P f st input h
    exact runPullsF_flagged P f st input h
  · intro P f st input l1 o l2 hl ht
    exact trace_terminal_last P f st input l1 o l2 hl ht

theorem c10_witness :
    pullNext noParsers { initialState testOptions "req-1" with final_chunk_sent := true } []
      = none ∧
    ({ initialState testOptions "req-1" with final_chunk_sent := true } :
      DriverState).final_chunk_sent = true ∧
    runPullsF noParsers 5 { initialState testOptions "req-1" with final_chunk_sent := true } []
      = ([], { initialState testOptions "req-1" with final_chunk_sent := true }) ∧
    ([] : List OutItem) = [] := by
  refine ⟨c10_sticky_terminal.1 noParsers _ [] rfl,
    c10_sticky_terminal.2.1 noParsers (initialState testOptions "req-1") [.transportError]
      .streamError { initialState testOptions "req-1" with final_chunk_sent := true } []
      rfl rfl,
    c10_sticky_terminal.2.2.1 noParsers 5 _ [] rfl,
    c10_sticky_terminal.2.2.2 noParsers 2 (initialState testOptions "req-1") [.transportError]
      [] .streamError [] rfl rfl⟩

/-- C9 as amended.  The accumulator error is monotone in definedness
(once set it never becomes `none` again, though a later `error` event may
replace the message — see the counterexample), and whenever it is set the
accumulator is finished, both per dispatch and for whole translator
runs. -/
theorem c9_error_monotone :
    (∀ (P : JsonParsers) (acc : SseAccumulator) (e d rid mo : String),
      acc.error.isSome = true →
      (process_single_dev_event P acc e d rid mo).1.error.isSome = true) ∧
    (∀ (P : JsonParsers) (acc : SseAccumulator) (e d rid mo : String),
      (acc.error.isSome = true → acc.is_finished = true) →
      (process_single_dev_event P acc e d rid mo).1.error.isSome = true →
      (process_single_dev_event P acc e d rid mo).1.is_finished = true) ∧
    (∀ (P : JsonParsers) (input : List ByteItem) (options : DevRequestOptions) (rid : String),
      (process_dev_bytes_stream_unfold P input options rid).2.accumulator.error.isSome = true →
      (process_dev_bytes_stream_unfold P input options rid).2.accumulator.is_finished = true) := by
  refine ⟨?_, ?_, ?_⟩
  · intro P acc e d rid mo
    exact (dispatch_fst P acc e d rid mo).2.1
  · intro P acc e d rid mo
    exact (dispatch_fst P acc e d rid mo).2.2.1
  · intro P input options rid
    exact runPullsF_inv P _ _ _ (fun hx => by simp [initialState] at hx)

theorem c9_witness :
    (process_single_dev_event noParsers
      { error := some "a", is_finished := true } "threadId" "t" "req-1"
      "test-model").1.error.isSome = true ∧
    (process_single_dev_event noParsers
      { error := some "a", is_finished := true } "threadId" "t" "req-1"
      "test-model").1.is_finished = true ∧
    (testRun twoErrInput).2.accumulator.is_finished = true := by
  refine ⟨c9_error_monotone.1 noParsers _ "threadId" "t" "req-1" "test-model" rfl,
    c9_error_monotone.2.1 noParsers _ "threadId" "t" "req-1" "test-model"
      (fun _ => rfl) rfl,
    c9_error_monotone.2.2 noParsers twoErrInput testOptions "req-1" (by decide)⟩

/-- C8.  A structured event (`action`, `sources`, `repoSources`) whose
payload fails to parse produces no chunk and leaves the accumulator
exactly unchanged, and the stream continues: a malformed `action`
followed by a content event still yields the content chunk and the final
chunk. -/
theorem c8_malformed_event_dropped :
    (∀ (P : JsonParsers) (acc : SseAccumulator) (d rid mo : String),
      P.parseAction d = none →
      process_single_dev_event P acc "action" d rid mo = (acc, none)) ∧
    (∀ (P : JsonParsers) (acc : SseAccumulator) (d rid mo : String),
      P.parseSources d = none →
      process_single_dev_event P acc "sources" d rid mo = (acc, none)) ∧
    (∀ (P : JsonParsers) (acc : SseAccumulator) (d rid mo : String),
      P.parseRepoSources d = none →
      process_single_dev_event P acc "repoSources" d rid mo = (acc, none)) ∧
    (testRun c8Input).1 =
      [.chunk (create_content_chunk "req-1" "test-model" "ok"),
       .chunk (create_final_chunk "req-1" "test-model" "stop")] := by
  refine ⟨?_, ?_, ?_, by decide⟩
  · intro P acc d rid mo h
    show (match P.parseAction d with
      | some a => ({ acc with actions := acc.actions ++ [a] },
          (none : Option ChatCompletionChunk))
      | none => (acc, none)) = (acc, none)
    rw [h]
  · intro P acc d rid mo h
    show (match P.parseSources d with
      | some s => ({ acc with sources := s }, (none : Option ChatCompletionChunk))
      | none => (acc, none)) = (acc, none)
    rw [h]
  · intro P acc d rid mo h
    show (match P.parseRepoSources d with
      | some gs => ({ acc with github_sources := gs }, (none : Option ChatCompletionChunk))
      | none => (acc, none)) = (acc, none)
    rw [h]

theorem c8_witness :
    process_single_dev_event noParsers ({} : SseAccumulator) "action" "notjson"
      "req-1" "test-model" = (({} : SseAccumulator), none) ∧
    process_single_dev_event noParsers ({} : SseAccumulator) "sources" "notjson"
      "req-1" "test-model" = (({} : SseAccumulator), none) ∧
    process_single_dev_event noParsers ({} : SseAccumulator) "repoSources" "notjson"
      "req-1" "test-model" = (({} : SseAccumulator), none) := by
  exact ⟨c8_malformed_event_dropped.1 noParsers ({} : SseAccumulator) "notjson"
      "req-1" "test-model" rfl,
    c8_malformed_event_dropped.2.1 noParsers ({} : SseAccumulator) "notjson"
      "req-1" "test-model" rfl,
    c8_malformed_event_dropped.2.2.1 noParsers ({} : SseAccumulator) "notjson"
      "req-1" "test-model" rfl⟩

/-- C2 as amended.  After an error chunk has been yielded, the translator
never yields the empty-delta final chunk: the terminal EOF emission is
suppressed.  (Content and further error events arriving after an error
event may still yield chunks — see the counterexample.) -/
theorem c2_no_final_after_error :
    ∀ (P : JsonParsers) (input : List ByteItem) (options : DevRequestOptions)
      (rid : String) (l1 : List OutItem) (c : ChatCompletionChunk) (l2 : List OutItem),
    (process_dev_bytes_stream_unfold P input options rid).1 = l1 ++ .chunk c :: l2 →
    errorShape c = true →
    l2.all (fun o => !isFinalOut o) = true := by
  intro P input options rid l1 c l2 hl hc
  exact trace_no_final_after_error P _ _ _ l1 c l2 hl hc

theorem c2_witness :
    ([OutItem.chunk (create_content_chunk "req-1" "test-model" "ignored")].all
      (fun o => !isFinalOut o)) = true := by
  exact c2_no_final_after_error noParsers s2Input testOptions "req-1"
    [.chunk (create_content_chunk "req-1" "test-model" "partial")]
    (create_error_chunk "req-1" "test-model" "boom")
    [.chunk (create_content_chunk "req-1" "test-model" "ignored")]
    (by decide) (by decide)

/-- C1 as amended.  For every upstream byte stream on which no `error`
event is dispatched (equivalently: the final accumulator's `error` field
is `none`), the chunk sequence contains at most one chunk with a
non-null `finish_reason`, and if one exists it is the last yielded item
of the stream. -/
theorem c1_finish_chunk_last :
    ∀ (P : JsonParsers) (input : List ByteItem) (options : DevRequestOptions)
      (rid : String) (l1 : List OutItem) (c : ChatCompletionChunk) (l2 : List OutItem),
    (process_dev_bytes_stream_unfold P input options rid).2.accumulator.error = none →
    (process_dev_bytes_stream_unfold P input options rid).1 = l1 ++ .chunk c :: l2 →
    hasFinish c = true → l2 = [] := by
  intro P input options rid l1 c l2 herr hl hc
  exact trace_finish_last P _ _ _ l1 c l2 herr hl hc

theorem c1_witness :
    ([] : List OutItem) = [] ∧ hasFinish (create_final_chunk "req-1" "test-model" "stop") = true := by
  refine ⟨?_, by decide⟩
  exact c1_finish_chunk_last noParsers simpleInput testOptions "req-1"
    [.chunk (create_content_chunk "req-1" "test-model" "hi")]
    (create_final_chunk "req-1" "test-model" "stop") []
    (by decide) (by decide) (by decide)

/-- C4 as amended.  At stream end the concatenation of the
`delta.content` fields over the emitted content chunks (error chunks'
`[STREAM_ERROR]` content excluded) is a prefix of the accumulator's
text, and equals it exactly whenever the decoded upstream character
stream is empty or ends with a newline (so that the EOF residual flush
dispatches nothing; the counterexample shows the residual flush is the
one source of divergence). -/
theorem c4_content_concat :
    ∀ (P : JsonParsers) (input : List ByteItem) (options : DevRequestOptions) (rid : String),
    (∃ r, (process_dev_bytes_stream_unfold P input options rid).2.accumulator.text
        = contentConcat (process_dev_bytes_stream_unfold P input options rid).1 ++ r) ∧
    ((decodedChars input = [] ∨ (decodedChars input).getLast? = some '\n') →
      (process_dev_bytes_stream_unfold P input options rid).2.accumulator.text
        = contentConcat (process_dev_bytes_stream_unfold P input options rid).1) := by
  intro P input options rid
  constructor
  · obtain ⟨r, hr⟩ := trace_text_grows P (streamFuel (initialState options rid) input)
      (initialState options rid) input
    rw [show (initialState options rid).accumulator.text = "" from rfl,
      String.empty_append] at hr
    exact ⟨r, hr⟩
  · intro hin
    have hce : combEnds (initialState options rid) input := hin
    have hr := trace_text_eq P (streamFuel (initialState options rid) input)
      (initialState options rid) input hce
    rw [show (initialState options rid).accumulator.text = "" from rfl,
      String.empty_append] at hr
    exact hr

theorem c4_witness :
    (testRun simpleInput).2.accumulator.text = contentConcat (testRun simpleInput).1 := by
  exact (c4_content_concat noParsers simpleInput testOptions "req-1").2 (by decide)


/-! ### Batch-boundary agnosticism (C5) -/

theorem utf8Strict_cons (b : Nat) (bs : List Nat) :
    utf8Strict (b :: bs) =
    (if b < 0x80 then (utf8Strict bs).map (fun cs => Char.ofNat b :: cs)
    else if 0xC2 ≤ b && b ≤ 0xDF then
      match bs with
      | [] => none
      | b1 :: r =>
        if isCont b1 then (utf8Strict r).map (fun cs => scalar2 b b1 :: cs)
        else none
    else if 0xE0 ≤ b && b ≤ 0xEF then
      match bs with
      | [] => none
      | b1 :: r =>
        if cont3First b b1 then
          match r with
          | [] => none
          | b2 :: r2 =>
            if isCont b2 then (utf8Strict r2).map (fun cs => scalar3 b b1 b2 :: cs)
            else none
        else none
    else if 0xF0 ≤ b && b ≤ 0xF4 then
      match bs with
      | [] => none
      | b1 :: r =>
        if cont4First b b1 then
          match r with
          | [] => none
          | b2 :: r2 =>
            if isCont b2 then
              match r2 with
              | [] => none
              | b3 :: r3 =>
                if isCont b3 then (utf8Strict r3).map (fun cs => scalar4 b b1 b2 b3 :: cs)
                else none
            else none
        else none
    else none) := by rw [utf8Strict.eq_def]

set_option maxHeartbeats 2000000 in
theorem utf8Strict_append :
    ∀ (l m : List Nat) (cs : List Char), utf8Strict l = some cs →
    utf8Strict (l ++ m) = (utf8Strict m).map (fun ds => cs ++ ds) := by
  intro l
  induction l using utf8Strict.induct
  all_goals intro m cs hcs
  case case1 =>
    simp only [utf8Strict] at hcs
    cases hcs
    simp only [List.nil_append]
    cases utf8Strict m <;> rfl
  all_goals try rename_i ih
  all_goals rw [utf8Strict_cons] at hcs
  all_goals try dsimp only at hcs
  all_goals simp only [Bool.and_eq_true, decide_eq_true_eq] at hcs
  all_goals split_ifs at hcs
  all_goals simp only [List.cons_append]
  all_goals rw [utf8Strict_cons]
  all_goals try dsimp only
  all_goals try simp only [Bool.and_eq_true, decide_eq_true_eq] at *
  all_goals try (exfalso; omega)
  all_goals simp only [*, if_true, if_false]
  all_goals obtain ⟨a, ha, rfl⟩ := Option.map_eq_some'.mp hcs
  all_goals rw [ih m a ha]
  all_goals cases utf8Strict m <;> simp

/-- Extending the buffer beyond a found newline does not change the split. -/
theorem splitFirstNl_append_some :
    ∀ (l line rest ext : List Char), splitFirstNl l = some (line, rest) →
    splitFirstNl (l ++ ext) = some (line, rest ++ ext) := by
  intro l
  induction l with
  | nil => intro line rest ext h; simp [splitFirstNl] at h
  | cons c cs ih =>
    intro line rest ext h
    rw [splitFirstNl] at h
    rw [List.cons_append, splitFirstNl]
    split at h
    · rename_i hc
      cases h
      rw [if_pos hc]
    · rename_i hc
      rw [if_neg hc]
      split at h
      · rename_i l1 r1 hp
        cases h
        rw [ih _ _ ext hp]
      · cases h

/-- Above the buffer length, the fuel given to `processLinesF` is
irrelevant: the loop drains at least one character per iteration. -/
theorem processLinesF_fuel (P : JsonParsers) :
    ∀ (f : Nat) (st : DriverState) (g : Nat), st.decoder_buffer.length < f →
    st.decoder_buffer.length < g →
    processLinesF P f st = processLinesF P g st := by
  intro f
  induction f with
  | zero => intro st g hf hg; exact absurd hf (Nat.not_lt_zero _)
  | succ f ih =>
    intro st g hf hg
    rcases g with _ | g
    · exact absurd hg (Nat.not_lt_zero _)
    rw [processLinesF, processLinesF]
    rcases hsp : splitFirstNl st.decoder_buffer with _ | ⟨line, restBuf⟩
    · rfl
    · obtain ⟨hdec, hpos⟩ := splitFirstNl_decomp _ _ _ hsp
      have hlen : st.decoder_buffer.length = line.length + restBuf.length := by
        rw [hdec]; simp
      dsimp only
      rcases parse_sse_line (String.mk (trimEndNlCr line)) with v | v | v | v | _ | _ <;>
        dsimp only
      · exact ih _ _ (by show restBuf.length < f; omega) (by show restBuf.length < g; omega)
      · exact ih _ _ (by show restBuf.length < f; omega) (by show restBuf.length < g; omega)
      · exact ih _ _ (by show restBuf.length < f; omega) (by show restBuf.length < g; omega)
      · exact ih _ _ (by show restBuf.length < f; omega) (by show restBuf.length < g; omega)
      · exact ih _ _ (by show restBuf.length < f; omega) (by show restBuf.length < g; omega)
      · split
        · exact ih _ _ (by show restBuf.length < f; omega) (by show restBuf.length < g; omega)
        · split
          · rfl
          · exact ih _ _ (by show restBuf.length < f; omega) (by show restBuf.length < g; omega)

/-- Sufficient fuel computes the `processLines` wrapper value. -/
theorem processLinesF_toWrapper (P : JsonParsers) (f : Nat) (st : DriverState)
    (h : st.decoder_buffer.length < f) :
    processLinesF P f st = processLines P st :=
  processLinesF_fuel P f st (st.decoder_buffer.length + 1) h (Nat.lt_succ_self _)

/-- Appending `ext` to the decode buffer commutes with the line loop: a
chunk-producing run produces the same chunk with `ext` still appended to
the leftover buffer, and a chunkless run leaves `ext` to be processed from
the stopping state. -/
theorem processLinesF_extend (P : JsonParsers) :
    ∀ (f : Nat) (st st1 : DriverState) (och : Option ChatCompletionChunk)
      (ext : List Char),
    st.decoder_buffer.length < f →
    processLinesF P f st = (st1, och) →
    processLines P { st with decoder_buffer := st.decoder_buffer ++ ext } =
      (match och with
       | some ch => ({ st1 with decoder_buffer := st1.decoder_buffer ++ ext }, some ch)
       | none =>
         processLines P { st1 with decoder_buffer := st1.decoder_buffer ++ ext }) := by
  intro f
  induction f with
  | zero => intro st st1 och ext hf h; exact absurd hf (Nat.not_lt_zero _)
  | succ f ih =>
    intro st st1 och ext hf h
    rw [processLinesF] at h
    rcases hsp : splitFirstNl st.decoder_buffer with _ | ⟨line, restBuf⟩
    · rw [hsp] at h
      cases h
      rfl
    · rw [hsp] at h
      dsimp only at h
      obtain ⟨hdec, hpos⟩ := splitFirstNl_decomp _ _ _ hsp
      have hlen : st.decoder_buffer.length = line.length + restBuf.length := by
        rw [hdec]; simp
      have hsp2 : splitFirstNl (st.decoder_buffer ++ ext) = some (line, restBuf ++ ext) :=
        splitFirstNl_append_some _ _ _ _ hsp
      rw [show processLines P { st with decoder_buffer := st.decoder_buffer ++ ext } =
        processLinesF P ((st.decoder_buffer ++ ext).length + 1)
          { st with decoder_buffer := st.decoder_buffer ++ ext } from rfl]
      rw [processLinesF]
      dsimp only
      rw [hsp2]
      dsimp only
      rcases hpl : parse_sse_line (String.mk (trimEndNlCr line)) with v | v | v | v | _ | _ <;>
        rw [hpl] at h <;> dsimp only at h ⊢
      · exact (processLinesF_toWrapper P _ _
            (by show (restBuf ++ ext).length < (st.decoder_buffer ++ ext).length
                simp; omega)).trans (ih _ _ _ ext (by show restBuf.length < f; omega) h)
      · exact (processLinesF_toWrapper P _ _
            (by show (restBuf ++ ext).length < (st.decoder_buffer ++ ext).length
                simp; omega)).trans (ih _ _ _ ext (by show restBuf.length < f; omega) h)
      · exact (processLinesF_toWrapper P _ _
            (by show (restBuf ++ ext).length < (st.decoder_buffer ++ ext).length
                simp; omega)).trans (ih _ _ _ ext (by show restBuf.length < f; omega) h)
      · exact (processLinesF_toWrapper P _ _
            (by show (restBuf ++ ext).length < (st.decoder_buffer ++ ext).length
                simp; omega)).trans (ih _ _ _ ext (by show restBuf.length < f; omega) h)
      · exact (processLinesF_toWrapper P _ _
            (by show (restBuf ++ ext).length < (st.decoder_buffer ++ ext).length
                simp; omega)).trans (ih _ _ _ ext (by show restBuf.length < f; omega) h)
      · rcases hie : st.current_data_buffer.isEmpty with _ | _
        · simp only [hie] at h ⊢
          rw [if_neg Bool.false_ne_true] at h ⊢
          rcases hdisp : process_single_dev_event P st.accumulator st.current_event_name
              (joinNl st.current_data_buffer) st.request_id st.model_name with ⟨acc1, _ | c⟩
          · rw [hdisp] at h
            dsimp only at h ⊢
            exact (processLinesF_toWrapper P _ _
                (by show (restBuf ++ ext).length < (st.decoder_buffer ++ ext).length
                    simp; omega)).trans (ih _ _ _ ext (by show restBuf.length < f; omega) h)
          · rw [hdisp] at h
            dsimp only at h ⊢
            cases h
            rfl
        · simp only [hie, if_true] at h ⊢
          exact (processLinesF_toWrapper P _ _
              (by show (restBuf ++ ext).length < (st.decoder_buffer ++ ext).length
                  simp; omega)).trans (ih _ _ _ ext (by show restBuf.length < f; omega) h)

/-- The poll loop `pullLoop` consults its state only through `processLines`. -/
theorem pullLoop_congr (P : JsonParsers) (a b : DriverState)
    (h : processLines P a = processLines P b) :
    ∀ (input : List ByteItem), pullLoop P a input = pullLoop P b input := by
  intro input
  conv_lhs => rw [pullLoop]
  conv_rhs => rw [pullLoop]
  rw [h]

/-- A valid-UTF-8 byte batch at the head of the stream can be absorbed
into the decode buffer without changing the yielded items. -/
theorem runPulls_absorb (P : JsonParsers) :
    ∀ (f : Nat) (st : DriverState) (bs : List Nat) (c : List Char)
      (rest : List ByteItem), utf8Strict bs = some c →
    (runPullsF P f st (.bytes bs :: rest)).1 =
    (runPullsF P f { st with decoder_buffer := st.decoder_buffer ++ c } rest).1 := by
  intro f
  induction f with
  | zero => intro st bs c rest hc; rfl
  | succ f ih =>
    intro st bs c rest hc
    have hdb : decodeBatch bs = c := by
      unfold decodeBatch
      rw [hc]
    rw [runPullsF, runPullsF, pullNext, pullNext]
    dsimp only
    by_cases hflag : st.final_chunk_sent = true
    · rw [if_pos hflag, if_pos hflag]
    · rw [if_neg hflag, if_neg hflag]
      rcases hp : processLines P st with ⟨st1, _ | ch⟩
      · have hl : pullLoop P st (.bytes bs :: rest) =
            pullLoop P { st1 with decoder_buffer := st1.decoder_buffer ++ decodeBatch bs }
              rest := by
          conv_lhs => rw [pullLoop]
          rw [hp]
        have hext := processLinesF_extend P (st.decoder_buffer.length + 1) st st1 none c
          (Nat.lt_succ_self _) hp
        have hr : pullLoop P { st with decoder_buffer := st.decoder_buffer ++ c } rest =
            pullLoop P { st1 with decoder_buffer := st1.decoder_buffer ++ c } rest :=
          pullLoop_congr P _ _ hext rest
        rw [hl, hdb, hr]
        rcases pullLoop P { st1 with decoder_buffer := st1.decoder_buffer ++ c } rest
          with _ | ⟨out, stx, inx⟩ <;> rfl
      · have hext := processLinesF_extend P (st.decoder_buffer.length + 1) st st1 (some ch) c
          (Nat.lt_succ_self _) hp
        have hl : pullLoop P st (.bytes bs :: rest) =
            some (.chunk ch, st1, .bytes bs :: rest) := by
          conv_lhs => rw [pullLoop]
          rw [hp]
        have hr : pullLoop P { st with decoder_buffer := st.decoder_buffer ++ c } rest =
            some (.chunk ch, { st1 with decoder_buffer := st1.decoder_buffer ++ c }, rest) := by
          conv_lhs => rw [pullLoop]
          rw [show processLines P { st with decoder_buffer := st.decoder_buffer ++ c } =
            ({ st1 with decoder_buffer := st1.decoder_buffer ++ c }, some ch) from hext]
        rw [hl, hr]
        dsimp only
        rcases h1 : runPullsF P f st1 (.bytes bs :: rest) with ⟨outs1, fin1⟩
        rcases h2 : runPullsF P f { st1 with decoder_buffer := st1.decoder_buffer ++ c } rest
          with ⟨outs2, fin2⟩
        dsimp only
        have h3 := ih st1 bs c rest hc
        rw [h1, h2] at h3
        rw [show outs1 = outs2 from h3]
/-- A concatenation of individually valid UTF-8 batches is valid, and
decodes to the concatenation of the batch decodes. -/
theorem utf8Strict_flatten :
    ∀ (ps : List (List Nat)), (∀ p ∈ ps, (utf8Strict p).isSome = true) →
    utf8Strict ps.flatten = some (ps.map decodeBatch).flatten := by
  intro ps
  induction ps with
  | nil => intro h; rfl
  | cons p ps ih =>
    intro h
    obtain ⟨c, hc⟩ := Option.isSome_iff_exists.mp (h p (by simp))
    have hdb : decodeBatch p = c := by
      unfold decodeBatch
      rw [hc]
    rw [List.flatten_cons, utf8Strict_append p ps.flatten c hc,
      ih (fun q hq => h q (by simp [hq])), List.map_cons, List.flatten_cons, hdb]
    rfl

/-- The total byte count of a list of byte batches. -/
theorem itemBytes_map_bytes :
    ∀ (ps : List (List Nat)), itemBytes (ps.map ByteItem.bytes) = ps.flatten.length := by
  intro ps
  induction ps with
  | nil => rfl
  | cons p rest ih => rw [List.map_cons, itemBytes, ih, List.flatten_cons]; simp

/-- All the valid-UTF-8 batches of a stream can be absorbed into the
decode buffer at once without changing the yielded items. -/
theorem absorb_pieces (P : JsonParsers) :
    ∀ (pieces : List (List Nat)) (f : Nat) (st : DriverState),
    (∀ p ∈ pieces, (utf8Strict p).isSome = true) →
    (runPullsF P f st (pieces.map ByteItem.bytes)).1 =
    (runPullsF P f { st with decoder_buffer :=
      st.decoder_buffer ++ (pieces.map decodeBatch).flatten } []).1 := by
  intro pieces
  induction pieces with
  | nil =>
    intro f st h
    show (runPullsF P f st []).1 = _
    rw [show st.decoder_buffer ++ (List.map decodeBatch []).flatten = st.decoder_buffer by simp]
  | cons p ps ih =>
    intro f st h
    obtain ⟨c, hc⟩ := Option.isSome_iff_exists.mp (h p (by simp))
    have hdb : decodeBatch p = c := by
      unfold decodeBatch
      rw [hc]
    rw [show (p :: ps).map ByteItem.bytes = ByteItem.bytes p :: ps.map ByteItem.bytes from rfl]
    rw [runPulls_absorb P f st p c _ hc]
    rw [ih f _ (fun q hq => h q (by simp [hq]))]
    rw [show ({ st with decoder_buffer := st.decoder_buffer ++ c } :
      DriverState).decoder_buffer = st.decoder_buffer ++ c from rfl]
    rw [List.map_cons, List.flatten_cons, hdb, List.append_assoc]

/-- C5 (amended).  The framer is chunk-boundary-agnostic for partitions
whose pieces are each valid UTF-8: feeding the pieces to the translator
one batch at a time yields exactly the same item sequence as feeding
their concatenation as a single batch.  (For partitions that cut through
a multi-byte UTF-8 character the outputs can differ, because each batch
is decoded lossily on its own: see the counterexample.) -/
theorem c5_valid_partition (P : JsonParsers) (pieces : List (List Nat))
    (options : DevRequestOptions) (rid : String)
    (h : ∀ p ∈ pieces, (utf8Strict p).isSome = true) :
    (process_dev_bytes_stream_unfold P (pieces.map ByteItem.bytes) options rid).1 =
    (process_dev_bytes_stream_unfold P [ByteItem.bytes pieces.flatten] options rid).1 := by
  show (runPullsF P (streamFuel (initialState options rid) (pieces.map ByteItem.bytes))
      (initialState options rid) (pieces.map ByteItem.bytes)).1 = _
  have hfuel : streamFuel (initialState options rid) (pieces.map ByteItem.bytes) =
      streamFuel (initialState options rid) [ByteItem.bytes pieces.flatten] := by
    unfold streamFuel
    rw [itemBytes_map_bytes]
    rw [show itemBytes [ByteItem.bytes pieces.flatten] = pieces.flatten.length + 0 from rfl]
    omega
  rw [hfuel]
  exact (absorb_pieces P pieces _ (initialState options rid) h).trans
    (runPulls_absorb P _ (initialState options rid) pieces.flatten _ []
      (utf8Strict_flatten pieces h)).symm

theorem c5_witness :
    (process_dev_bytes_stream_unfold noParsers
        ([strBytes "event: c\ndata: ", [0xC3, 0xA9], strBytes "\n\n"].map ByteItem.bytes)
        testOptions "req-1").1 =
    (process_dev_bytes_stream_unfold noParsers
        [ByteItem.bytes ([strBytes "event: c\ndata: ", [0xC3, 0xA9],
          strBytes "\n\n"].flatten)]
        testOptions "req-1").1 :=
  c5_valid_partition noParsers [strBytes "event: c\ndata: ", [0xC3, 0xA9], strBytes "\n\n"]
    testOptions "req-1" (by decide)


end SseProc
